import Mathlib

/-!
# Verification of the `mongodb-visualization` store-client wrapper

Shallow embedding of `src/mongo_connection.py` (class `MongoDriver`).

* Documents are JSON values (`J`).  The Python code parses its input with
  `json.loads`; we model the JSON text parser executably (`parseValue`,
  `json_loads`).  Number tokens are kept as raw strings (no float semantics
  is needed by any claim) and string escapes are kept raw; the exotic
  `NaN/Infinity` extensions of Python's `json` are not modelled.
* The server-side data visible through the driver's single bound database is
  a list of named collections (`MDState.store`).  `client`/`db` mirror the
  Python attributes (`None` before `connect`).
* Each Python method becomes a total Lean function returning `OpOut α`:
  the post state, the list of printed messages (structured, one constructor
  per `print` f-string in the source), and `Except PyErr α` recording
  whether the method raised or returned (`Option Nat` models a Python
  return value that may be `None`).
* External collaborators (`pymongo` query execution) are opaque: `find` /
  `aggregate` results are produced by caller-supplied functions, exactly as
  the Python code passes the query dictionaries through verbatim.
-/

/-- A JSON value, as produced by `json.loads`.  Number tokens are kept
verbatim (`num "12.5"`), string contents are kept with raw escapes. -/
inductive J where
  | null : J
  | bool (b : Bool) : J
  | num (tok : String) : J
  | str (s : String) : J
  | arr (elems : List J) : J
  | obj (fields : List (String × J)) : J

/-- Is this value a JSON object (a Python `dict`)? -/
def J.isObjB : J → Bool
  | .obj _ => true
  | _ => false

/-- JSON insignificant whitespace (the four characters `json.loads` skips). -/
def jsonWs (c : Char) : Bool := c = ' ' || c = '\t' || c = '\n' || c = '\r'

/-- Whitespace stripped by Python `str.strip()` (ASCII part). -/
def pyWs (c : Char) : Bool := jsonWs c || c = '\x0b' || c = '\x0c'

/-- Characters that can continue a JSON number token. -/
def numChar (c : Char) : Bool :=
  c.isDigit || c = '-' || c = '+' || c = '.' || c = 'e' || c = 'E'

/-- Skip JSON whitespace. -/
def skipWs (cs : List Char) : List Char := cs.dropWhile jsonWs

/-- Scan the body of a JSON string after the opening quote; escapes are kept
raw (backslash plus following character).  Returns content and remainder. -/
def scanStr (acc : List Char) : List Char → Option (String × List Char)
  | [] => none
  | c :: cs =>
    if c = '"' then some (String.mk acc.reverse, cs)
    else if c = '\\' then
      match cs with
      | [] => none
      | d :: cs' => scanStr (d :: c :: acc) cs'
    else scanStr (c :: acc) cs

mutual
/-- Parse one JSON value (leading whitespace allowed), fuelled. -/
def parseValue : Nat → List Char → Option (J × List Char)
  | 0, _ => none
  | Nat.succ f, cs =>
    match skipWs cs with
    | [] => none
    | c :: cs' =>
      if c = '{' then
        match skipWs cs' with
        | [] => none
        | c2 :: r2 =>
          if c2 = '}' then some (J.obj [], r2)
          else
            match parseMembers f cs' with
            | some (fs, rest) => some (J.obj fs, rest)
            | none => none
      else if c = '[' then
        match skipWs cs' with
        | [] => none
        | c2 :: r2 =>
          if c2 = ']' then some (J.arr [], r2)
          else
            match parseElems f cs' with
            | some (es, rest) => some (J.arr es, rest)
            | none => none
      else if c = '"' then
        match scanStr [] cs' with
        | some (s, rest) => some (J.str s, rest)
        | none => none
      else if c = 't' then
        match cs' with
        | 'r' :: 'u' :: 'e' :: rest => some (J.bool true, rest)
        | _ => none
      else if c = 'f' then
        match cs' with
        | 'a' :: 'l' :: 's' :: 'e' :: rest => some (J.bool false, rest)
        | _ => none
      else if c = 'n' then
        match cs' with
        | 'u' :: 'l' :: 'l' :: rest => some (J.null, rest)
        | _ => none
      else if c = '-' || c.isDigit then
        some (J.num (String.mk (c :: cs'.takeWhile numChar)), cs'.dropWhile numChar)
      else none

/-- Parse the elements of a non-empty JSON array after `[`, fuelled. -/
def parseElems : Nat → List Char → Option (List J × List Char)
  | 0, _ => none
  | Nat.succ f, cs =>
    match parseValue f cs with
    | none => none
    | some (v, rest) =>
      match skipWs rest with
      | [] => none
      | c2 :: r2 =>
        if c2 = ',' then
          match parseElems f r2 with
          | some (es, rest3) => some (v :: es, rest3)
          | none => none
        else if c2 = ']' then some ([v], r2)
        else none

/-- Parse the members of a non-empty JSON object after `{`, fuelled. -/
def parseMembers : Nat → List Char → Option (List (String × J) × List Char)
  | 0, _ => none
  | Nat.succ f, cs =>
    match skipWs cs with
    | [] => none
    | c0 :: cs' =>
      if c0 = '"' then
        match scanStr [] cs' with
        | none => none
        | some (k, rest) =>
          match skipWs rest with
          | [] => none
          | c1 :: r2 =>
            if c1 = ':' then
              match parseValue f r2 with
              | none => none
              | some (v, rest3) =>
                match skipWs rest3 with
                | [] => none
                | c3 :: r4 =>
                  if c3 = ',' then
                    match parseMembers f r4 with
                    | some (fs, rest5) => some ((k, v) :: fs, rest5)
                    | none => none
                  else if c3 = '}' then some ([(k, v)], r4)
                  else none
            else none
      else none
end

/-- `json.loads`: parse a full value, tolerating trailing whitespace only. -/
def json_loads (cs : List Char) : Option J :=
  match parseValue (cs.length + 1) cs with
  | some (v, rest) => if skipWs rest = [] then some v else none
  | none => none

/-- Python `str.split('\n')` (always returns at least one piece). -/
def splitNl : List Char → List (List Char)
  | [] => [[]]
  | c :: cs =>
    if c = '\n' then [] :: splitNl cs
    else
      match splitNl cs with
      | [] => [[c]]
      | l :: ls => (c :: l) :: ls

/-- Python `','.join(...)`. -/
def joinComma : List (List Char) → List Char
  | [] => []
  | [l] => l
  | l :: ls => l ++ ',' :: joinComma ls

/-- Left part of Python `str.strip()`. -/
def lstrip (cs : List Char) : List Char := cs.dropWhile pyWs

/-- Right part of Python `str.strip()`. -/
def rstrip (cs : List Char) : List Char := (cs.reverse.dropWhile pyWs).reverse

/-- Python `str.strip()`. -/
def pyStrip (cs : List Char) : List Char := lstrip (rstrip cs)

/-- The array text built by `insert_data` from the file contents:
`'[' + ','.join(data.strip().split('\n')) + ']'`. -/
def reassemble (content : String) : List Char :=
  '[' :: joinComma (splitNl (pyStrip content.data)) ++ [']']

/-! ## The driver state -/

/-- Python exceptions that the modelled operations can raise. -/
inductive PyErr where
  | typeError
  | attributeError
  | jsonDecodeError
  | invalidOperation
  | connectionError
deriving DecidableEq, Repr

/-- One `print(...)` emitted by the driver, kept structurally (one
constructor per f-string in the source). -/
inductive OutMsg where
  | dbRepr (db : String)
  | deletedCount (n : Nat) (coll : String)
  | droppedColl (coll : String) (db : String)
  | insertedCount (n : Nat) (coll : String) (db : String)
  | document (d : J)

/-- The observable state of a `MongoDriver` plus the bound database's
server-side collections. -/
structure MDState where
  host : String
  port : Nat
  db_name : String
  /-- `self.client`: `none` before `connect`; `some flag` afterwards, where
  `flag` is whether the transport is still open (`close` flips it). -/
  client : Option Bool
  /-- `self.db`: `none` before `connect`, the bound database name after. -/
  db : Option String
  /-- collections of the bound database: name ↦ documents. -/
  store : List (String × List J)

/-- Result of running one method: post state, printed lines, and either the
Python return value or the exception raised. -/
structure OpOut (α : Type) where
  state : MDState
  out : List OutMsg
  ret : Except PyErr α

/-- Did the call return normally? -/
def pyOk {α : Type} : Except PyErr α → Bool
  | .ok _ => true
  | .error _ => false

/-- Association-list lookup over the store. -/
def lookupColl : List (String × List J) → String → Option (List J)
  | [], _ => none
  | (n, docs) :: rest, name => if n = name then some docs else lookupColl rest name

/-- Empty out one collection (documents removed, entry kept). -/
def clearColl : List (String × List J) → String → List (String × List J)
  | [], _ => []
  | (n, docs) :: rest, name =>
    if n = name then (n, []) :: clearColl rest name
    else (n, docs) :: clearColl rest name

/-- Append freshly inserted documents to one collection. -/
def appendDocs : List (String × List J) → String → List J → List (String × List J)
  | [], _, _ => []
  | (n, docs) :: rest, name, ds =>
    if n = name then (n, docs ++ ds) :: appendDocs rest name ds
    else (n, docs) :: appendDocs rest name ds

/-- Create a new empty collection. -/
def addColl (store : List (String × List J)) (name : String) :
    List (String × List J) :=
  store ++ [(name, [])]

/-- Drop a collection. -/
def dropColl (store : List (String × List J)) (name : String) :
    List (String × List J) :=
  store.filter fun p => !(p.1 = name : Bool)

namespace MongoDriver

/-- `__init__`: store the configuration; `client` and `db` start as `None`. -/
def init (host : String) (port : Nat) (db_name : String) : MDState :=
  { host := host, port := port, db_name := db_name,
    client := none, db := none, store := [] }

/-- `connect`: builds the `MongoClient` and binds the database, with no
`try/except` whatsoever; `transportOk` says whether the underlying client
constructor succeeds, and when it does not the exception propagates with
nothing assigned and nothing printed. -/
def connect (transportOk : Bool) (st : MDState) : OpOut Unit :=
  if transportOk then
    { state := { st with client := some true, db := some st.db_name },
      out := [.dbRepr st.db_name],
      ret := .ok () }
  else
    { state := st, out := [], ret := .error .connectionError }

/-- `disconnect`: `self.client.close()`.  Raises `AttributeError` on the
`None` client; otherwise only the client's open flag changes. -/
def disconnect (st : MDState) : OpOut Unit :=
  match st.client with
  | none => { state := st, out := [], ret := .error .attributeError }
  | some _ => { state := { st with client := some false }, out := [], ret := .ok () }

/-- `flush_collection`: `delete_many({})` then print the deleted count.
The Python function has no `return`, hence returns `None`. -/
def flush_collection (st : MDState) (collection_name : String) : OpOut (Option Nat) :=
  match st.db with
  | none => { state := st, out := [], ret := .error .typeError }
  | some _ =>
    let deleted := ((lookupColl st.store collection_name).getD []).length
    { state := { st with store := clearColl st.store collection_name },
      out := [.deletedCount deleted collection_name],
      ret := .ok none }

/-- `remove_collection`: `collection.drop()`. -/
def remove_collection (st : MDState) (collection_name : String) : OpOut (Option Nat) :=
  match st.db with
  | none => { state := st, out := [], ret := .error .typeError }
  | some dbn =>
    { state := { st with store := dropColl st.store collection_name },
      out := [.droppedColl collection_name dbn],
      ret := .ok none }

/-- `collection_size`: `len(list(self.db[name].find({})))`. -/
def collection_size (st : MDState) (collection_name : String) : OpOut Nat :=
  match st.db with
  | none => { state := st, out := [], ret := .error .typeError }
  | some _ =>
    { state := st, out := [],
      ret := .ok ((lookupColl st.store collection_name).getD []).length }

/-- The `try: create_collection / except: db[name]` pattern shared by
`insert_data`, `search_query` and `aggregate_query`.  With `db = None` the
`except` arm evaluates `None[name]` and raises `TypeError`. -/
def resolve_collection (st : MDState) (collection_name : String) : OpOut String :=
  match st.db with
  | none => { state := st, out := [], ret := .error .typeError }
  | some _ =>
    match lookupColl st.store collection_name with
    | some _ => { state := st, out := [], ret := .ok collection_name }
    | none =>
      { state := { st with store := addColl st.store collection_name },
        out := [], ret := .ok collection_name }

/-- `pymongo`'s `insert_many` argument check: an empty list raises
`InvalidOperation`, a non-mapping element raises `TypeError`. -/
def insertManyErr (docs : List J) : Option PyErr :=
  if docs.isEmpty then some .invalidOperation
  else if docs.all J.isObjB then none
  else some .typeError

/-- `insert_data`: resolve the collection, optionally flush it, then split
the file contents on newlines, rejoin with commas inside brackets, parse
with `json.loads`, and bulk-insert.  No `return`, hence returns `None`. -/
def insert_data (st : MDState) (collection_name : String) (content : String)
    (clear : Bool) : OpOut (Option Nat) :=
  match st.db with
  | none => { state := st, out := [], ret := .error .typeError }
  | some dbn =>
    let st1 := (resolve_collection st collection_name).state
    let fr := flush_collection st1 collection_name
    let st2 := if clear then fr.state else st1
    let out2 := if clear then fr.out else []
    match json_loads (reassemble content) with
    | none => { state := st2, out := out2, ret := .error .jsonDecodeError }
    | some (J.arr es) =>
      match insertManyErr es with
      | some e => { state := st2, out := out2, ret := .error e }
      | none =>
        { state := { st2 with store := appendDocs st2.store collection_name es },
          out := out2 ++ [.insertedCount es.length collection_name dbn],
          ret := .ok none }
    | some _ =>
      -- unreachable: the reassembled text starts with '[', so a successful
      -- parse is an array
      { state := st2, out := out2, ret := .error .typeError }

/-- The `for document in documents: if show: print(document); result.append`
loop shared by `search_query` and `aggregate_query`. -/
def collectShow (show_ : Bool) : List J → List J × List OutMsg
  | [] => ([], [])
  | d :: ds =>
    let r := collectShow show_ ds
    (d :: r.1, (if show_ then [OutMsg.document d] else []) ++ r.2)

/-- `search_query`: resolve the collection, run
`collection.find(qu, proj).limit(lim)` (delegated verbatim to the store,
modelled by the caller-supplied `findImpl`), then collect the cursor. -/
def search_query (findImpl : List J → J → J → Nat → List J) (st : MDState)
    (collection_name : String) (qu : J) (proj : J) (lim : Nat) (show_ : Bool) :
    OpOut (List J) :=
  match st.db with
  | none => { state := st, out := [], ret := .error .typeError }
  | some _ =>
    let r := resolve_collection st collection_name
    let documents :=
      findImpl ((lookupColl r.state.store collection_name).getD []) qu proj lim
    let c := collectShow show_ documents
    { state := r.state, out := c.2, ret := .ok c.1 }

/-- `aggregate_query`: resolve the collection, run
`collection.aggregate(query)` (modelled by `aggImpl`), collect the cursor. -/
def aggregate_query (aggImpl : List J → List J → List J) (st : MDState)
    (collection_name : String) (query : List J) (show_ : Bool) :
    OpOut (List J) :=
  match st.db with
  | none => { state := st, out := [], ret := .error .typeError }
  | some _ =>
    let r := resolve_collection st collection_name
    let documents :=
      aggImpl ((lookupColl r.state.store collection_name).getD []) query
    let c := collectShow show_ documents
    { state := r.state, out := c.2, ret := .ok c.1 }

end MongoDriver

/-- Non-empty lines of a text (what the round-trip count law counts). -/
def countNE (ls : List (List Char)) : Nat :=
  (ls.filter fun l => !l.isEmpty).length

/-- Does a text line parse as one JSON object literal? -/
def lineObjB (l : List Char) : Bool :=
  match json_loads l with
  | some (J.obj _) => true
  | _ => false

/-- Is the collection absent or empty? -/
def emptyCollB (st : MDState) (c : String) : Bool :=
  match lookupColl st.store c with
  | none => true
  | some [] => true
  | some (_ :: _) => false

/-! ## Store lemmas -/

theorem lookupColl_clearColl_self (s : List (String × List J)) (c : String) :
    lookupColl (clearColl s c) c = (lookupColl s c).map fun _ => [] := by
  induction s with
  | nil => rfl
  | cons p rest ih =>
    obtain ⟨n, docs⟩ := p
    by_cases h : n = c
    · subst h; simp [clearColl, lookupColl]
    · simpa [clearColl, lookupColl, h] using ih

theorem lookupColl_clearColl_other (s : List (String × List J)) (c c' : String)
    (h : c' ≠ c) : lookupColl (clearColl s c) c' = lookupColl s c' := by
  induction s with
  | nil => rfl
  | cons p rest ih =>
    obtain ⟨n, docs⟩ := p
    by_cases hn : n = c
    · subst hn; simpa [clearColl, lookupColl, Ne.symm h] using ih
    · simp [clearColl, lookupColl, hn, ih]

theorem lookupColl_addColl_none (s : List (String × List J)) (c : String)
    (h : lookupColl s c = none) : lookupColl (addColl s c) c = some [] := by
  induction s with
  | nil => simp [addColl, lookupColl]
  | cons p rest ih =>
    obtain ⟨n, docs⟩ := p
    by_cases hn : n = c
    · subst hn; simp [lookupColl] at h
    · simp only [lookupColl, hn, if_false] at h
      simpa [addColl, lookupColl, hn] using ih h

theorem lookupColl_appendDocs_self (s : List (String × List J)) (c : String)
    (ds : List J) :
    lookupColl (appendDocs s c ds) c = (lookupColl s c).map (· ++ ds) := by
  induction s with
  | nil => rfl
  | cons p rest ih =>
    obtain ⟨n, docs⟩ := p
    by_cases h : n = c
    · subst h; simp [appendDocs, lookupColl]
    · simpa [appendDocs, lookupColl, h] using ih

theorem collectShow_fst (sh : Bool) (ds : List J) :
    (MongoDriver.collectShow sh ds).1 = ds := by
  induction ds with
  | nil => rfl
  | cons d ds ih => simp [MongoDriver.collectShow, ih]

/-! ## Claims about connection state and lifecycle -/

/-- C9: on a client on which `connect()` has never been called (the state
produced by `__init__`, with `client = None` and `db = None`), every
collection operation — flush, drop, size, ingest, find, aggregate — raises
(`TypeError`, from subscripting the `None` database) rather than
proceeding, and `disconnect()` also raises (`AttributeError` on the `None`
client). -/
theorem C9_ops_fail_before_connect (host : String) (port : Nat) (dbn : String)
    (c : String) (src : String) (clear : Bool) (qu proj : J) (lim : Nat)
    (sh : Bool) (fi : List J → J → J → Nat → List J)
    (ai : List J → List J → List J) (q : List J) :
    (MongoDriver.init host port dbn).client = none ∧
    (MongoDriver.init host port dbn).db = none ∧
    (MongoDriver.flush_collection (MongoDriver.init host port dbn) c).ret =
      .error .typeError ∧
    (MongoDriver.remove_collection (MongoDriver.init host port dbn) c).ret =
      .error .typeError ∧
    (MongoDriver.collection_size (MongoDriver.init host port dbn) c).ret =
      .error .typeError ∧
    (MongoDriver.insert_data (MongoDriver.init host port dbn) c src clear).ret =
      .error .typeError ∧
    (MongoDriver.search_query fi (MongoDriver.init host port dbn) c qu proj lim sh).ret =
      .error .typeError ∧
    (MongoDriver.aggregate_query ai (MongoDriver.init host port dbn) c q sh).ret =
      .error .typeError ∧
    (MongoDriver.disconnect (MongoDriver.init host port dbn)).ret =
      .error .attributeError :=
  ⟨rfl, rfl, rfl, rfl, rfl, rfl, rfl, rfl, rfl⟩

/-- C10 (implicit frame effect): `disconnect()` only closes the transport:
the whole state change is flipping the client's open flag; the `client`
and `db` attributes are not reset to `None`, the server data is untouched,
and afterwards every collection operation passes whatever local check there
is (none looks at the client) and proceeds against the stale binding:
size/flush/find/aggregate all return normally, and ingest behaves exactly
as it did before the disconnect. -/
theorem C10_disconnect_leaves_binding (st : MDState) (b : Bool) (d : String)
    (c : String) (qu proj : J) (lim : Nat) (sh : Bool)
    (fi : List J → J → J → Nat → List J) (ai : List J → List J → List J)
    (q : List J) (src : String) (clear : Bool)
    (hc : st.client = some b) (hd : st.db = some d) :
    (MongoDriver.disconnect st).ret = .ok () ∧
    (MongoDriver.disconnect st).state = { st with client := some false } ∧
    (MongoDriver.disconnect st).state.db = some d ∧
    (MongoDriver.disconnect st).state.client = some false ∧
    (MongoDriver.disconnect st).state.store = st.store ∧
    pyOk (MongoDriver.collection_size (MongoDriver.disconnect st).state c).ret = true ∧
    pyOk (MongoDriver.flush_collection (MongoDriver.disconnect st).state c).ret = true ∧
    pyOk (MongoDriver.search_query fi (MongoDriver.disconnect st).state c qu proj lim sh).ret
      = true ∧
    pyOk (MongoDriver.aggregate_query ai (MongoDriver.disconnect st).state c q sh).ret
      = true ∧
    (MongoDriver.insert_data (MongoDriver.disconnect st).state c src clear).ret =
      (MongoDriver.insert_data st c src clear).ret := by
  obtain ⟨host, port, dbn, cl, db, store⟩ := st
  cases hc
  cases hd
  refine ⟨rfl, rfl, rfl, rfl, rfl, rfl, rfl, rfl, rfl, ?_⟩
  simp only [MongoDriver.insert_data]
  cases hj : json_loads (reassemble src) <;> try rfl
  rename_i v
  cases v <;> try rfl
  rename_i es
  cases hie : MongoDriver.insertManyErr es <;> simp [hie, MongoDriver.disconnect]

/-- Witness for C10 at a concrete connected driver. -/
theorem C10_disconnect_leaves_binding_witness :
    ((MongoDriver.connect true (MongoDriver.init "localhost" 27017 "restaurants")).state.client
      = some true ∧
     (MongoDriver.connect true (MongoDriver.init "localhost" 27017 "restaurants")).state.db
      = some "restaurants") ∧
    ((MongoDriver.disconnect
        (MongoDriver.connect true (MongoDriver.init "localhost" 27017 "restaurants")).state).ret
      = .ok () ∧
     (MongoDriver.disconnect
        (MongoDriver.connect true (MongoDriver.init "localhost" 27017 "restaurants")).state).state
      = { (MongoDriver.connect true (MongoDriver.init "localhost" 27017 "restaurants")).state
          with client := some false } ∧
     (MongoDriver.disconnect
        (MongoDriver.connect true (MongoDriver.init "localhost" 27017 "restaurants")).state).state.db
      = some "restaurants" ∧
     (MongoDriver.disconnect
        (MongoDriver.connect true (MongoDriver.init "localhost" 27017 "restaurants")).state).state.client
      = some false ∧
     (MongoDriver.disconnect
        (MongoDriver.connect true (MongoDriver.init "localhost" 27017 "restaurants")).state).state.store
      = (MongoDriver.connect true (MongoDriver.init "localhost" 27017 "restaurants")).state.store ∧
     pyOk (MongoDriver.collection_size (MongoDriver.disconnect
        (MongoDriver.connect true (MongoDriver.init "localhost" 27017 "restaurants")).state).state
        "t").ret = true ∧
     pyOk (MongoDriver.flush_collection (MongoDriver.disconnect
        (MongoDriver.connect true (MongoDriver.init "localhost" 27017 "restaurants")).state).state
        "t").ret = true ∧
     pyOk (MongoDriver.search_query (fun docs _ _ _ => docs) (MongoDriver.disconnect
        (MongoDriver.connect true (MongoDriver.init "localhost" 27017 "restaurants")).state).state
        "t" J.null J.null 10 true).ret = true ∧
     pyOk (MongoDriver.aggregate_query (fun docs _ => docs) (MongoDriver.disconnect
        (MongoDriver.connect true (MongoDriver.init "localhost" 27017 "restaurants")).state).state
        "t" [] true).ret = true ∧
     (MongoDriver.insert_data (MongoDriver.disconnect
        (MongoDriver.connect true (MongoDriver.init "localhost" 27017 "restaurants")).state).state
        "t" "x" false).ret =
       (MongoDriver.insert_data
        (MongoDriver.connect true (MongoDriver.init "localhost" 27017 "restaurants")).state
        "t" "x" false).ret) :=
  ⟨⟨rfl, rfl⟩,
   C10_disconnect_leaves_binding
     (MongoDriver.connect true (MongoDriver.init "localhost" 27017 "restaurants")).state
     true "restaurants" "t" J.null J.null 10 true (fun docs _ _ _ => docs)
     (fun docs _ => docs) [] "x" false rfl rfl⟩

/-- C8 counterexample: the code has no `try/except` in `connect` at all.
On a transport failure raised by the `MongoClient` constructor, `connect`
raises (`ret` is an error, so it does not return normally) and logs
nothing — contradicting the claim that the error is caught and logged
inside `connect` and that `connect` returns without raising. -/
theorem C8_connect_counterexample :
    (MongoDriver.connect false
      (MongoDriver.init "localhost" 27017 "restaurants")).ret =
      .error .connectionError ∧
    (MongoDriver.connect false
      (MongoDriver.init "localhost" 27017 "restaurants")).out = [] :=
  ⟨rfl, rfl⟩

/-- C8 (amended): a transport failure during `connect()` is not caught or
logged inside `connect`; the exception propagates to the caller, nothing
is printed, and the driver state is left unchanged — in particular the
client is left without a live connection. -/
theorem C8_connect_failure_propagates (st : MDState) :
    (MongoDriver.connect false st).ret = .error .connectionError ∧
    (MongoDriver.connect false st).state = st ∧
    (MongoDriver.connect false st).out = [] :=
  ⟨rfl, rfl, rfl⟩

/-! ## Claims about queries and collection lifecycle -/

/-- C7: for every state, collection name, filter, projection, limit and
pipeline (and any behaviour of the underlying store's `find`/`aggregate`),
two runs of `search_query` (resp. `aggregate_query`) that differ only in
the `show` flag return the same value and leave the same state: the
`show` side effect only changes what is printed. -/
theorem C7_show_flag_no_effect (fi : List J → J → J → Nat → List J)
    (ai : List J → List J → List J) (st : MDState) (c : String) (qu proj : J)
    (lim : Nat) (p : List J) :
    (MongoDriver.search_query fi st c qu proj lim true).ret =
      (MongoDriver.search_query fi st c qu proj lim false).ret ∧
    (MongoDriver.search_query fi st c qu proj lim true).state =
      (MongoDriver.search_query fi st c qu proj lim false).state ∧
    (MongoDriver.aggregate_query ai st c p true).ret =
      (MongoDriver.aggregate_query ai st c p false).ret ∧
    (MongoDriver.aggregate_query ai st c p true).state =
      (MongoDriver.aggregate_query ai st c p false).state := by
  cases hdb : st.db <;>
    simp [MongoDriver.search_query, MongoDriver.aggregate_query, hdb, collectShow_fst]

/-- C5: with a bound database, resolving a collection (the
`try: create_collection / except: db[name]` pattern) twice in succession
hands back the same collection name both times, the second resolution
returns normally (never raises), and it does not change the state again. -/
theorem C5_resolve_idempotent (st : MDState) (d c : String)
    (hd : st.db = some d) :
    (MongoDriver.resolve_collection st c).ret = .ok c ∧
    (MongoDriver.resolve_collection (MongoDriver.resolve_collection st c).state c).ret
      = .ok c ∧
    (MongoDriver.resolve_collection (MongoDriver.resolve_collection st c).state c).state
      = (MongoDriver.resolve_collection st c).state := by
  cases hl : lookupColl st.store c with
  | some docs =>
    simp [MongoDriver.resolve_collection, hd, hl]
  | none =>
    have h2 : lookupColl (addColl st.store c) c = some [] :=
      lookupColl_addColl_none st.store c hl
    simp [MongoDriver.resolve_collection, hd, hl, h2]

/-- Witness for C5 on a concrete connected driver and absent collection. -/
theorem C5_resolve_idempotent_witness :
    ({ MongoDriver.init "localhost" 27017 "d" with db := some "d" } : MDState).db
      = some "d" ∧
    ((MongoDriver.resolve_collection
        { MongoDriver.init "localhost" 27017 "d" with db := some "d" } "t").ret = .ok "t" ∧
     (MongoDriver.resolve_collection
        (MongoDriver.resolve_collection
          { MongoDriver.init "localhost" 27017 "d" with db := some "d" } "t").state "t").ret
        = .ok "t" ∧
     (MongoDriver.resolve_collection
        (MongoDriver.resolve_collection
          { MongoDriver.init "localhost" 27017 "d" with db := some "d" } "t").state "t").state
        = (MongoDriver.resolve_collection
            { MongoDriver.init "localhost" 27017 "d" with db := some "d" } "t").state) :=
  ⟨rfl, C5_resolve_idempotent
    { MongoDriver.init "localhost" 27017 "d" with db := some "d" } "d" "t" rfl⟩

/-- C6: with a bound database, `flush_collection` followed by
`collection_size` yields `0`, whatever the prior contents were. -/
theorem C6_flush_then_size_zero (st : MDState) (d c : String)
    (hd : st.db = some d) :
    (MongoDriver.collection_size (MongoDriver.flush_collection st c).state c).ret
      = .ok 0 := by
  have h := lookupColl_clearColl_self st.store c
  cases hl : lookupColl st.store c <;>
    simp [MongoDriver.collection_size, MongoDriver.flush_collection, hd, hl, h]

/-- Witness for C6 on a concrete two-document collection. -/
theorem C6_flush_then_size_zero_witness :
    ({ MongoDriver.init "localhost" 27017 "d" with
        db := some "d", store := [("t", [J.obj [], J.obj []])] } : MDState).db = some "d" ∧
    (MongoDriver.collection_size
      (MongoDriver.flush_collection
        { MongoDriver.init "localhost" 27017 "d" with
          db := some "d", store := [("t", [J.obj [], J.obj []])] } "t").state "t").ret = .ok 0 :=
  ⟨rfl, C6_flush_then_size_zero
    { MongoDriver.init "localhost" 27017 "d" with
      db := some "d", store := [("t", [J.obj [], J.obj []])] } "d" "t" rfl⟩

/-- C4 counterexample: on a connected driver whose collection `"t"` holds
two documents, `flush_collection` removes both but returns Python `None`
(it has no `return` statement; the count is only printed), so it does not
return the number of documents removed (`2`). -/
theorem C4_flush_return_counterexample :
    (MongoDriver.flush_collection
      { MongoDriver.init "localhost" 27017 "d" with
        db := some "d", store := [("t", [J.obj [], J.obj []])] } "t").ret = .ok none ∧
    ((lookupColl [("t", [J.obj [], J.obj []])] "t").getD []).length = 2 ∧
    (Except.ok (none : Option Nat) : Except PyErr (Option Nat)) ≠ .ok (some 2) :=
  ⟨rfl, rfl, by simp⟩

/-- C4 (amended): with a bound database, `flush_collection` removes every
document of the collection without dropping it (other collections are
untouched), prints the number of documents removed (the prior size), and
returns `None` rather than that number; a subsequent size check yields 0. -/
theorem C4_flush_behaviour (st : MDState) (d c : String) (hd : st.db = some d) :
    (MongoDriver.flush_collection st c).ret = .ok none ∧
    (MongoDriver.flush_collection st c).out =
      [.deletedCount ((lookupColl st.store c).getD []).length c] ∧
    lookupColl (MongoDriver.flush_collection st c).state.store c =
      (lookupColl st.store c).map (fun _ => []) ∧
    (∀ c', c' ≠ c →
      lookupColl (MongoDriver.flush_collection st c).state.store c' =
        lookupColl st.store c') ∧
    (MongoDriver.collection_size (MongoDriver.flush_collection st c).state c).ret
      = .ok 0 := by
  refine ⟨?_, ?_, ?_, ?_, C6_flush_then_size_zero st d c hd⟩ <;>
    simp [MongoDriver.flush_collection, hd, lookupColl_clearColl_self]
  exact fun c' h => lookupColl_clearColl_other st.store c c' h

/-- Witness for C4 (amended) on a concrete two-document collection. -/
theorem C4_flush_behaviour_witness :
    ({ MongoDriver.init "localhost" 27017 "d" with
        db := some "d", store := [("t", [J.obj [], J.obj []])] } : MDState).db = some "d" ∧
    ((MongoDriver.flush_collection
        { MongoDriver.init "localhost" 27017 "d" with
          db := some "d", store := [("t", [J.obj [], J.obj []])] } "t").ret = .ok none ∧
     (MongoDriver.flush_collection
        { MongoDriver.init "localhost" 27017 "d" with
          db := some "d", store := [("t", [J.obj [], J.obj []])] } "t").out =
        [.deletedCount ((lookupColl
            ({ MongoDriver.init "localhost" 27017 "d" with
               db := some "d", store := [("t", [J.obj [], J.obj []])] } : MDState).store "t").getD []).length
          "t"] ∧
     lookupColl (MongoDriver.flush_collection
        { MongoDriver.init "localhost" 27017 "d" with
          db := some "d", store := [("t", [J.obj [], J.obj []])] } "t").state.store "t" =
        (lookupColl
          ({ MongoDriver.init "localhost" 27017 "d" with
             db := some "d", store := [("t", [J.obj [], J.obj []])] } : MDState).store "t").map (fun _ => []) ∧
     (∀ c', c' ≠ "t" →
        lookupColl (MongoDriver.flush_collection
          { MongoDriver.init "localhost" 27017 "d" with
            db := some "d", store := [("t", [J.obj [], J.obj []])] } "t").state.store c' =
          lookupColl
            ({ MongoDriver.init "localhost" 27017 "d" with
               db := some "d", store := [("t", [J.obj [], J.obj []])] } : MDState).store c') ∧
     (MongoDriver.collection_size (MongoDriver.flush_collection
        { MongoDriver.init "localhost" 27017 "d" with
          db := some "d", store := [("t", [J.obj [], J.obj []])] } "t").state "t").ret = .ok 0) :=
  ⟨rfl, C4_flush_behaviour
    { MongoDriver.init "localhost" 27017 "d" with
      db := some "d", store := [("t", [J.obj [], J.obj []])] } "d" "t" rfl⟩

/-! ## Claims about ingestion -/

/-- C2 counterexample, two concrete scenarios.
(A) `clearFirst = true` with the malformed source `"x"` on a collection
holding one document: ingest raises the JSON decode error, but the prior
document has already been removed, because the flush happens before the
file is parsed — so the collection is not left unchanged.
(B) `clearFirst = false` with the source `"\x7b\"a\":[1\n2]\x7d"`: both of its
(non-empty) lines are malformed as JSON objects, yet ingest raises nothing
at all and inserts one document, because rejoining the lines with a comma
happens to rebuild valid JSON. -/
theorem C2_ingest_counterexample :
    ((MongoDriver.insert_data
        { MongoDriver.init "localhost" 27017 "d" with
          db := some "d", store := [("t", [J.obj []])] } "t" "x" true).ret =
      .error .jsonDecodeError ∧
     lookupColl (MongoDriver.insert_data
        { MongoDriver.init "localhost" 27017 "d" with
          db := some "d", store := [("t", [J.obj []])] } "t" "x" true).state.store "t" =
      some [] ∧
     lookupColl [("t", [J.obj []])] "t" = some [J.obj []]) ∧
    (((splitNl ("\x7b\"a\":[1\n2]\x7d" : String).data).any
        (fun l => !l.isEmpty && !lineObjB l)) = true ∧
     pyOk (MongoDriver.insert_data
        { MongoDriver.init "localhost" 27017 "d" with
          db := some "d", store := [("t", [J.obj []])] } "t" "\x7b\"a\":[1\n2]\x7d" false).ret =
      true ∧
     (MongoDriver.collection_size (MongoDriver.insert_data
        { MongoDriver.init "localhost" 27017 "d" with
          db := some "d", store := [("t", [J.obj []])] } "t" "\x7b\"a\":[1\n2]\x7d"
        false).state "t").ret = .ok 2) :=
  ⟨⟨rfl, rfl, rfl⟩, ⟨rfl, rfl, rfl⟩⟩

/-- C2 (amended): ingest raises a `FormatError` exactly when the rebuilt
`'[' + ','.join(lines) + ']'` text fails to parse (a malformed line does
not guarantee this).  When that happens with `clearFirst = false`, the
target collection's documents are unchanged; with `clearFirst = true` the
collection has already been flushed before parsing, so its prior documents
are removed even though the ingest then raises. -/
theorem C2_ingest_failure_behaviour (st : MDState) (d c : String) (src : String)
    (hd : st.db = some d) (hbad : json_loads (reassemble src) = none) :
    ((MongoDriver.insert_data st c src false).ret = .error .jsonDecodeError ∧
     (lookupColl (MongoDriver.insert_data st c src false).state.store c).getD [] =
       (lookupColl st.store c).getD []) ∧
    ((MongoDriver.insert_data st c src true).ret = .error .jsonDecodeError ∧
     (lookupColl (MongoDriver.insert_data st c src true).state.store c).getD [] = []) := by
  cases hl : lookupColl st.store c with
  | some v =>
    simp [MongoDriver.insert_data, MongoDriver.resolve_collection,
      MongoDriver.flush_collection, hd, hbad, hl, lookupColl_clearColl_self]
  | none =>
    have h2 := lookupColl_addColl_none st.store c hl
    simp [MongoDriver.insert_data, MongoDriver.resolve_collection,
      MongoDriver.flush_collection, hd, hbad, hl, h2, lookupColl_clearColl_self]

/-- Witness for C2 (amended) at the concrete malformed source `"x"`. -/
theorem C2_ingest_failure_behaviour_witness :
    (({ MongoDriver.init "localhost" 27017 "d" with
          db := some "d", store := [("t", [J.obj []])] } : MDState).db = some "d" ∧
      json_loads (reassemble "x") = none) ∧
    (((MongoDriver.insert_data
        { MongoDriver.init "localhost" 27017 "d" with
          db := some "d", store := [("t", [J.obj []])] } "t" "x" false).ret =
        .error .jsonDecodeError ∧
      (lookupColl (MongoDriver.insert_data
        { MongoDriver.init "localhost" 27017 "d" with
          db := some "d", store := [("t", [J.obj []])] } "t" "x" false).state.store
        "t").getD [] =
        (lookupColl ({ MongoDriver.init "localhost" 27017 "d" with
          db := some "d", store := [("t", [J.obj []])] } : MDState).store "t").getD []) ∧
     ((MongoDriver.insert_data
        { MongoDriver.init "localhost" 27017 "d" with
          db := some "d", store := [("t", [J.obj []])] } "t" "x" true).ret =
        .error .jsonDecodeError ∧
      (lookupColl (MongoDriver.insert_data
        { MongoDriver.init "localhost" 27017 "d" with
          db := some "d", store := [("t", [J.obj []])] } "t" "x" true).state.store
        "t").getD [] = [])) :=
  ⟨⟨rfl, rfl⟩, C2_ingest_failure_behaviour
    { MongoDriver.init "localhost" 27017 "d" with
      db := some "d", store := [("t", [J.obj []])] } "d" "t" "x" rfl rfl⟩

/-- C3 counterexample: ingesting the well-formed one-line source
`{"a":null}` into an empty collection succeeds and inserts one document
(the size afterwards is 1), but `insert_data` returns Python `None` — the
count is only printed — so ingest does not return the number of documents
inserted. -/
theorem C3_ingest_return_counterexample :
    (MongoDriver.insert_data
      { MongoDriver.init "localhost" 27017 "d" with db := some "d", store := [] }
      "t" "\x7b\"a\":null\x7d" false).ret = .ok none ∧
    (MongoDriver.collection_size (MongoDriver.insert_data
      { MongoDriver.init "localhost" 27017 "d" with db := some "d", store := [] }
      "t" "\x7b\"a\":null\x7d" false).state "t").ret = .ok 1 ∧
    (Except.ok (none : Option Nat) : Except PyErr (Option Nat)) ≠ .ok (some 1) :=
  ⟨rfl, rfl, by simp⟩

/-- C3 (amended): on a well-formed source (the rebuilt array text parses
as a non-empty array of objects `es`), ingest bulk-inserts `es`, prints
the number of documents inserted (`es.length`, the count of parsed
objects), and returns `None`; the collection grows by exactly that many
documents. -/
theorem C3_ingest_inserts_and_prints_count (st : MDState) (d c : String)
    (src : String) (es : List J) (hd : st.db = some d)
    (hparse : json_loads (reassemble src) = some (J.arr es)) (hne : es ≠ [])
    (hobj : es.all J.isObjB = true) :
    (MongoDriver.insert_data st c src false).ret = .ok none ∧
    (MongoDriver.insert_data st c src false).out =
      [.insertedCount es.length c d] ∧
    (MongoDriver.collection_size (MongoDriver.insert_data st c src false).state c).ret
      = .ok (((lookupColl st.store c).getD []).length + es.length) := by
  have hie : MongoDriver.insertManyErr es = none := by
    have : es.isEmpty = false := by
      cases es with
      | nil => exact absurd rfl hne
      | cons a t => rfl
    simp [MongoDriver.insertManyErr, this, hobj]
  cases hl : lookupColl st.store c with
  | some v =>
    simp [MongoDriver.insert_data, MongoDriver.resolve_collection,
      MongoDriver.collection_size, hd, hparse, hl, hie, lookupColl_appendDocs_self]
  | none =>
    have h2 := lookupColl_addColl_none st.store c hl
    simp [MongoDriver.insert_data, MongoDriver.resolve_collection,
      MongoDriver.collection_size, hd, hparse, hl, h2, hie,
      lookupColl_appendDocs_self]

/-- Witness for C3 (amended) at the concrete source `{"a":null}`. -/
theorem C3_ingest_inserts_and_prints_count_witness :
    (({ MongoDriver.init "localhost" 27017 "d" with
        db := some "d", store := [] } : MDState).db = some "d" ∧
     json_loads (reassemble "\x7b\"a\":null\x7d") = some (J.arr [J.obj [("a", J.null)]]) ∧
     ([J.obj [("a", J.null)]] : List J) ≠ [] ∧
     ([J.obj [("a", J.null)]] : List J).all J.isObjB = true) ∧
    ((MongoDriver.insert_data
        { MongoDriver.init "localhost" 27017 "d" with db := some "d", store := [] }
        "t" "\x7b\"a\":null\x7d" false).ret = .ok none ∧
     (MongoDriver.insert_data
        { MongoDriver.init "localhost" 27017 "d" with db := some "d", store := [] }
        "t" "\x7b\"a\":null\x7d" false).out =
        [.insertedCount ([J.obj [("a", J.null)]] : List J).length "t" "d"] ∧
     (MongoDriver.collection_size (MongoDriver.insert_data
        { MongoDriver.init "localhost" 27017 "d" with db := some "d", store := [] }
        "t" "\x7b\"a\":null\x7d" false).state "t").ret =
        .ok (((lookupColl ({ MongoDriver.init "localhost" 27017 "d" with
            db := some "d", store := [] } : MDState).store "t").getD []).length +
          ([J.obj [("a", J.null)]] : List J).length)) :=
  ⟨⟨rfl, rfl, by simp, rfl⟩,
   C3_ingest_inserts_and_prints_count
    { MongoDriver.init "localhost" 27017 "d" with db := some "d", store := [] }
    "d" "t" "\x7b\"a\":null\x7d" [J.obj [("a", J.null)]] rfl rfl (by simp) rfl⟩

/-! ## Parser lemmas for the round-trip count law (C1)

A successful parse consumes a well-delimited prefix: replacing everything
after that prefix does not change the parsed value.  These "replacement"
lemmas let us compute the parse of the comma-rejoined array text from the
parses of the individual lines. -/

theorem takeWhile_ws_all (cs : List Char) :
    ∀ x ∈ cs.takeWhile jsonWs, jsonWs x = true :=
  fun _ h => List.mem_takeWhile_imp h

theorem skipWs_append_of_all (a b : List Char) (h : ∀ x ∈ a, jsonWs x = true) :
    skipWs (a ++ b) = skipWs b := by
  induction a with
  | nil => rfl
  | cons c a ih =>
    have hc : jsonWs c = true := h c (by simp)
    simp only [List.cons_append, skipWs, List.dropWhile_cons, hc, if_true]
    exact ih fun x hx => h x (List.mem_cons_of_mem _ hx)

theorem skipWs_decomp (cs : List Char) (c : Char) (r : List Char)
    (h : skipWs cs = c :: r) : cs = cs.takeWhile jsonWs ++ c :: r := by
  simp only [skipWs] at h
  conv_lhs => rw [← List.takeWhile_append_dropWhile (p := jsonWs) (l := cs)]
  rw [h]

theorem skipWs_head_not (cs : List Char) (c : Char) (r : List Char)
    (h : skipWs cs = c :: r) : jsonWs c = false := by
  induction cs with
  | nil => simp [skipWs] at h
  | cons d cs ih =>
    by_cases hd : jsonWs d
    · exact ih (by simpa [skipWs, List.dropWhile_cons, hd] using h)
    · simp only [skipWs, List.dropWhile_cons] at h
      rw [if_neg (by simpa using hd)] at h
      cases h
      simpa using hd

theorem skipWs_cons_append (cs t : List Char) (c : Char) (r : List Char)
    (h : skipWs cs = c :: r) : skipWs (cs ++ t) = c :: (r ++ t) := by
  have h2 := skipWs_head_not cs c r h
  conv_lhs => rw [skipWs_decomp cs c r h]
  rw [List.append_assoc,
    skipWs_append_of_all _ _ (takeWhile_ws_all cs)]
  simp [skipWs, List.dropWhile_cons, h2]

theorem jsonWs_not_numChar (c : Char) (h : jsonWs c = true) : numChar c = false := by
  simp only [jsonWs, Bool.or_eq_true, decide_eq_true_eq] at h
  rcases h with ((h | h) | h) | h <;> subst h <;> decide

theorem takeWhile_all_self (p : Char → Bool) (a : List Char)
    (h : ∀ x ∈ a, p x = true) : a.takeWhile p = a ∧ a.dropWhile p = [] := by
  induction a with
  | nil => exact ⟨rfl, rfl⟩
  | cons c a ih =>
    have hc : p c = true := h c (by simp)
    have := ih fun x hx => h x (List.mem_cons_of_mem _ hx)
    simp [List.takeWhile_cons, List.dropWhile_cons, hc, this.1, this.2]

theorem takeWhile_all_stop (p : Char → Bool) (a t : List Char) (c : Char)
    (h : ∀ x ∈ a, p x = true) (hc : p c = false) :
    (a ++ c :: t).takeWhile p = a ∧ (a ++ c :: t).dropWhile p = c :: t := by
  induction a with
  | nil => simp [List.takeWhile_cons, List.dropWhile_cons, hc]
  | cons d a ih =>
    have hd : p d = true := h d (by simp)
    have := ih fun x hx => h x (List.mem_cons_of_mem _ hx)
    simp [List.takeWhile_cons, List.dropWhile_cons, hd, this.1, this.2]

/-- Replacement lemma for `scanStr`: a successful scan consumed exactly a
prefix ending at the closing quote, and keeps succeeding whatever follows
that prefix. -/
theorem scanStr_replace_aux (n : Nat) : ∀ (acc cs : List Char), cs.length ≤ n →
    ∀ s rest, scanStr acc cs = some (s, rest) →
    ∃ pre, cs = pre ++ rest ∧ ∀ t, scanStr acc (pre ++ t) = some (s, t) := by
  induction n with
  | zero =>
    intro acc cs hle s rest h
    have : cs = [] := List.eq_nil_of_length_eq_zero (Nat.le_zero.mp hle)
    subst this
    simp [scanStr] at h
  | succ n ih =>
    intro acc cs hle s rest h
    match cs with
    | [] => simp [scanStr] at h
    | c :: cs' =>
      by_cases hq : c = '"'
      · subst hq
        simp [scanStr.eq_def] at h
        obtain ⟨hs, hr⟩ := h
        subst hr
        refine ⟨['"'], rfl, fun t => ?_⟩
        simp [scanStr.eq_def, hs]
      · by_cases hb : c = '\\'
        · subst hb
          match cs' with
          | [] => rw [scanStr.eq_def] at h; simp at h
          | d :: cs'' =>
            have h' : scanStr (d :: '\\' :: acc) cs'' = some (s, rest) := by
              rw [scanStr.eq_def] at h; simpa using h
            obtain ⟨pre, hpre, hall⟩ :=
              ih (d :: '\\' :: acc) cs'' (by simp at hle; omega) s rest h'
            refine ⟨'\\' :: d :: pre, by simp [hpre], fun t => ?_⟩
            rw [scanStr.eq_def]
            simpa using hall t
        · have h' : scanStr (c :: acc) cs' = some (s, rest) := by
            rw [scanStr.eq_def] at h
            simpa [if_neg hq, if_neg hb] using h
          obtain ⟨pre, hpre, hall⟩ :=
            ih (c :: acc) cs' (by simp at hle; omega) s rest h'
          refine ⟨c :: pre, by simp [hpre], fun t => ?_⟩
          rw [scanStr.eq_def]
          simpa [if_neg hq, if_neg hb] using hall t

theorem scanStr_replace (acc cs : List Char) (s : String) (rest : List Char)
    (h : scanStr acc cs = some (s, rest)) :
    ∃ pre, cs = pre ++ rest ∧ ∀ t, scanStr acc (pre ++ t) = some (s, t) :=
  scanStr_replace_aux cs.length acc cs le_rfl s rest h

/-! ### Named continuation bodies of the parser (non-recursive restatements,
proved equal to the corresponding unfoldings by `rfl`) -/

/-- Body of `parseValue (f+1)` once the first significant character `c`
(with remainder `cs'`) is known. -/
def valDispatch (f : Nat) (c : Char) (cs' : List Char) : Option (J × List Char) :=
  if c = '{' then
    match skipWs cs' with
    | [] => none
    | c2 :: r2 =>
      if c2 = '}' then some (J.obj [], r2)
      else
        match parseMembers f cs' with
        | some (fs, rest) => some (J.obj fs, rest)
        | none => none
  else if c = '[' then
    match skipWs cs' with
    | [] => none
    | c2 :: r2 =>
      if c2 = ']' then some (J.arr [], r2)
      else
        match parseElems f cs' with
        | some (es, rest) => some (J.arr es, rest)
        | none => none
  else if c = '"' then
    match scanStr [] cs' with
    | some (s, rest) => some (J.str s, rest)
    | none => none
  else if c = 't' then
    match cs' with
    | 'r' :: 'u' :: 'e' :: rest => some (J.bool true, rest)
    | _ => none
  else if c = 'f' then
    match cs' with
    | 'a' :: 'l' :: 's' :: 'e' :: rest => some (J.bool false, rest)
    | _ => none
  else if c = 'n' then
    match cs' with
    | 'u' :: 'l' :: 'l' :: rest => some (J.null, rest)
    | _ => none
  else if c = '-' || c.isDigit then
    some (J.num (String.mk (c :: cs'.takeWhile numChar)), cs'.dropWhile numChar)
  else none

/-- Body of `parseElems (f+1)` after its leading value has been parsed. -/
def elemsCont (f : Nat) (v : J) (rest : List Char) : Option (List J × List Char) :=
  match skipWs rest with
  | [] => none
  | c2 :: r2 =>
    if c2 = ',' then
      match parseElems f r2 with
      | some (es, rest3) => some (v :: es, rest3)
      | none => none
    else if c2 = ']' then some ([v], r2)
    else none

/-- Body of `parseMembers (f+1)` once the first significant character `c0`
(with remainder `cs'`) is known. -/
def membersBody (f : Nat) (c0 : Char) (cs' : List Char) :
    Option (List (String × J) × List Char) :=
  if c0 = '"' then
    match scanStr [] cs' with
    | none => none
    | some (k, rest) =>
      match skipWs rest with
      | [] => none
      | c1 :: r2 =>
        if c1 = ':' then
          match parseValue f r2 with
          | none => none
          | some (v, rest3) =>
            match skipWs rest3 with
            | [] => none
            | c3 :: r4 =>
              if c3 = ',' then
                match parseMembers f r4 with
                | some (fs, rest5) => some ((k, v) :: fs, rest5)
                | none => none
              else if c3 = '}' then some ([(k, v)], r4)
              else none
        else none
  else none

theorem parseValue_nil (f : Nat) (cs : List Char) (h : skipWs cs = []) :
    parseValue (f + 1) cs = none := by
  have h0 : parseValue (f + 1) cs =
      (match skipWs cs with
      | [] => none
      | c :: cs' => valDispatch f c cs') := rfl
  rw [h0]
  simp only [h]

theorem parseValue_cons (f : Nat) (cs : List Char) (c : Char) (cs' : List Char)
    (h : skipWs cs = c :: cs') : parseValue (f + 1) cs = valDispatch f c cs' := by
  have h0 : parseValue (f + 1) cs =
      (match skipWs cs with
      | [] => none
      | c :: cs' => valDispatch f c cs') := rfl
  rw [h0]
  simp only [h]

theorem parseElems_succ (f : Nat) (cs : List Char) :
    parseElems (f + 1) cs =
      (match parseValue f cs with
      | none => none
      | some (v, rest) => elemsCont f v rest) := rfl

theorem parseMembers_nil (f : Nat) (cs : List Char) (h : skipWs cs = []) :
    parseMembers (f + 1) cs = none := by
  have h0 : parseMembers (f + 1) cs =
      (match skipWs cs with
      | [] => none
      | c0 :: cs' => membersBody f c0 cs') := rfl
  rw [h0]
  simp only [h]

theorem parseMembers_cons (f : Nat) (cs : List Char) (c0 : Char) (cs' : List Char)
    (h : skipWs cs = c0 :: cs') : parseMembers (f + 1) cs = membersBody f c0 cs' := by
  have h0 : parseMembers (f + 1) cs =
      (match skipWs cs with
      | [] => none
      | c0 :: cs' => membersBody f c0 cs') := rfl
  rw [h0]
  simp only [h]

/-- The only boundary problem for continuing a parse is a number token
followed by more number characters. -/
def numBoundary : J → List Char → Prop
  | J.num _, c :: _ => numChar c = false
  | _, _ => True

theorem numBoundary_nil (v : J) : numBoundary v [] := by
  cases v <;> simp [numBoundary]

theorem skipWs_cons_not (c : Char) (r : List Char) (h : jsonWs c = false) :
    skipWs (c :: r) = c :: r := by
  simp [skipWs, List.dropWhile_cons, h]

theorem skipWs_pre_build (a : List Char) (c : Char) (x : List Char)
    (ha : ∀ y ∈ a, jsonWs y = true) (hc : jsonWs c = false) :
    skipWs (a ++ c :: x) = c :: x := by
  rw [skipWs_append_of_all a _ ha]
  exact skipWs_cons_not c x hc

theorem numBoundary_build (v : J) (a z : List Char) (c0 : Char)
    (ha : ∀ y ∈ a, jsonWs y = true) (hc : numChar c0 = false) :
    numBoundary v (a ++ c0 :: z) := by
  cases v with
  | num tok =>
    cases a with
    | nil => simpa [numBoundary] using hc
    | cons w a' =>
      have hw := jsonWs_not_numChar w (ha w (by simp))
      simpa [numBoundary] using hw
  | null => simp [numBoundary]
  | bool b => simp [numBoundary]
  | str s => simp [numBoundary]
  | arr es => simp [numBoundary]
  | obj fs => simp [numBoundary]

/-- Replacement property of the JSON parser: a successful parse consumes a
well-delimited prefix `pre` of its input (non-empty up to whitespace, and
ending in `'}'` for objects), and parsing `pre ++ t` yields the same value
with remainder `t`, for any continuation `t` respecting the number-token
boundary.  Proved for the three mutually recursive parsers at once by
induction on the fuel. -/
theorem parse_replace (f : Nat) :
    (∀ cs v rest, parseValue f cs = some (v, rest) →
      ∃ pre, cs = pre ++ rest ∧
        (∃ x xs, skipWs pre = x :: xs) ∧
        (∀ fs, v = J.obj fs → ∃ p, pre = p ++ ['}']) ∧
        (∀ t, numBoundary v t → parseValue f (pre ++ t) = some (v, t))) ∧
    (∀ cs es rest, parseElems f cs = some (es, rest) →
      ∃ pre, cs = pre ++ rest ∧
        (∃ x xs, skipWs pre = x :: xs) ∧
        (∀ t, parseElems f (pre ++ t) = some (es, t))) ∧
    (∀ cs ms rest, parseMembers f cs = some (ms, rest) →
      ∃ pre, cs = pre ++ rest ∧
        (∃ x xs, skipWs pre = x :: xs) ∧
        (∃ p, pre = p ++ ['}']) ∧
        (∀ t, parseMembers f (pre ++ t) = some (ms, t))) := by
  induction f with
  | zero =>
    refine ⟨?_, ?_, ?_⟩ <;> intro cs a rest h <;> exact Option.noConfusion h
  | succ f ih =>
    obtain ⟨ihV, ihE, ihM⟩ := ih
    refine ⟨?_, ?_, ?_⟩
    · -- parseValue
      intro cs v rest h
      rcases hsk : skipWs cs with _ | ⟨c, cs1⟩
      · rw [parseValue_nil f cs hsk] at h
        exact Option.noConfusion h
      rw [parseValue_cons f cs c cs1 hsk] at h
      have hdec := skipWs_decomp cs c cs1 hsk
      have hcws := skipWs_head_not cs c cs1 hsk
      unfold valDispatch at h
      by_cases hc1 : c = '{'
      · subst hc1
        rw [if_pos rfl] at h
        rcases hsk2 : skipWs cs1 with _ | ⟨c2, r2⟩
        · simp only [hsk2] at h
          exact Option.noConfusion h
        · simp only [hsk2] at h
          by_cases hc2 : c2 = '}'
          · subst hc2
            rw [if_pos rfl] at h
            simp only [Option.some.injEq, Prod.mk.injEq] at h
            obtain ⟨hv, hr⟩ := h
            subst hv; subst hr
            have hdec2 := skipWs_decomp cs1 '}' r2 hsk2
            refine ⟨cs.takeWhile jsonWs ++ '{' :: (cs1.takeWhile jsonWs ++ ['}']),
              ?_, ?_, ?_, ?_⟩
            · conv_lhs => rw [hdec, hdec2]
              simp [List.append_assoc]
            · exact ⟨'{', _, skipWs_pre_build _ '{' _ (takeWhile_ws_all cs) (by decide)⟩
            · intro fs _
              exact ⟨cs.takeWhile jsonWs ++ '{' :: cs1.takeWhile jsonWs,
                by simp [List.append_assoc]⟩
            · intro t _
              have hshape : (cs.takeWhile jsonWs ++ '{' :: (cs1.takeWhile jsonWs ++ ['}'])) ++ t
                  = cs.takeWhile jsonWs ++ '{' :: ((cs1.takeWhile jsonWs ++ ['}']) ++ t) := by
                simp [List.append_assoc]
              have e1 : skipWs ((cs.takeWhile jsonWs ++ '{' :: (cs1.takeWhile jsonWs ++ ['}'])) ++ t)
                  = '{' :: ((cs1.takeWhile jsonWs ++ ['}']) ++ t) := by
                rw [hshape]
                exact skipWs_pre_build _ '{' _ (takeWhile_ws_all cs) (by decide)
              rw [parseValue_cons f _ '{' _ e1]
              unfold valDispatch
              rw [if_pos rfl]
              have e2 : skipWs (cs1.takeWhile jsonWs ++ '}' :: t) = '}' :: t :=
                skipWs_pre_build _ '}' _ (takeWhile_ws_all cs1) (by decide)
              simp [e2]
          · rw [if_neg hc2] at h
            rcases hm : parseMembers f cs1 with _ | ⟨ms, restM⟩
            · simp only [hm] at h
              exact Option.noConfusion h
            · simp only [hm, Option.some.injEq, Prod.mk.injEq] at h
              obtain ⟨hv, hr⟩ := h
              subst hv; subst hr
              obtain ⟨preM, hpreM, ⟨x, xs, hxs⟩, ⟨pM, hpM⟩, hfamM⟩ := ihM cs1 ms restM hm
              have hx1 : skipWs cs1 = x :: (xs ++ restM) := by
                conv_lhs => rw [hpreM]
                exact skipWs_cons_append preM restM x xs hxs
              have hxc : x = c2 := by
                have h12 := hx1.symm.trans hsk2
                injection h12
              refine ⟨cs.takeWhile jsonWs ++ '{' :: preM, ?_, ?_, ?_, ?_⟩
              · conv_lhs => rw [hdec, hpreM]
                simp [List.append_assoc]
              · exact ⟨'{', preM, skipWs_pre_build _ '{' preM (takeWhile_ws_all cs) (by decide)⟩
              · intro fs _
                refine ⟨cs.takeWhile jsonWs ++ '{' :: pM, ?_⟩
                rw [hpM]
                simp [List.append_assoc]
              · intro t _
                have hshape : (cs.takeWhile jsonWs ++ '{' :: preM) ++ t
                    = cs.takeWhile jsonWs ++ '{' :: (preM ++ t) := by
                  simp [List.append_assoc]
                have e1 : skipWs ((cs.takeWhile jsonWs ++ '{' :: preM) ++ t)
                    = '{' :: (preM ++ t) := by
                  rw [hshape]
                  exact skipWs_pre_build _ '{' _ (takeWhile_ws_all cs) (by decide)
                rw [parseValue_cons f _ '{' _ e1]
                unfold valDispatch
                rw [if_pos rfl]
                have e2 : skipWs (preM ++ t) = c2 :: (xs ++ t) := by
                  rw [← hxc]
                  exact skipWs_cons_append preM t x xs hxs
                simp [e2, hc2, hfamM t]
      · by_cases hc2 : c = '['
        · subst hc2
          rw [if_neg (by decide), if_pos rfl] at h
          rcases hsk2 : skipWs cs1 with _ | ⟨c2, r2⟩
          · simp only [hsk2] at h
            exact Option.noConfusion h
          · simp only [hsk2] at h
            by_cases hcb : c2 = ']'
            · subst hcb
              rw [if_pos rfl] at h
              simp only [Option.some.injEq, Prod.mk.injEq] at h
              obtain ⟨hv, hr⟩ := h
              subst hv; subst hr
              have hdec2 := skipWs_decomp cs1 ']' r2 hsk2
              refine ⟨cs.takeWhile jsonWs ++ '[' :: (cs1.takeWhile jsonWs ++ [']']),
                ?_, ?_, ?_, ?_⟩
              · conv_lhs => rw [hdec, hdec2]
                simp [List.append_assoc]
              · exact ⟨'[', _, skipWs_pre_build _ '[' _ (takeWhile_ws_all cs) (by decide)⟩
              · intro fs hfs
                exact J.noConfusion hfs
              · intro t _
                have hshape : (cs.takeWhile jsonWs ++ '[' :: (cs1.takeWhile jsonWs ++ [']'])) ++ t
                    = cs.takeWhile jsonWs ++ '[' :: ((cs1.takeWhile jsonWs ++ [']']) ++ t) := by
                  simp [List.append_assoc]
                have e1 : skipWs ((cs.takeWhile jsonWs ++ '[' :: (cs1.takeWhile jsonWs ++ [']'])) ++ t)
                    = '[' :: ((cs1.takeWhile jsonWs ++ [']']) ++ t) := by
                  rw [hshape]
                  exact skipWs_pre_build _ '[' _ (takeWhile_ws_all cs) (by decide)
                rw [parseValue_cons f _ '[' _ e1]
                unfold valDispatch
                rw [if_neg (by decide), if_pos rfl]
                have e2 : skipWs (cs1.takeWhile jsonWs ++ ']' :: t) = ']' :: t :=
                  skipWs_pre_build _ ']' _ (takeWhile_ws_all cs1) (by decide)
                simp [e2]
            · rw [if_neg hcb] at h
              rcases he : parseElems f cs1 with _ | ⟨es, restE⟩
              · simp only [he] at h
                exact Option.noConfusion h
              · simp only [he, Option.some.injEq, Prod.mk.injEq] at h
                obtain ⟨hv, hr⟩ := h
                subst hv; subst hr
                obtain ⟨preE, hpreE, ⟨x, xs, hxs⟩, hfamE⟩ := ihE cs1 es restE he
                have hx1 : skipWs cs1 = x :: (xs ++ restE) := by
                  conv_lhs => rw [hpreE]
                  exact skipWs_cons_append preE restE x xs hxs
                have hxc : x = c2 := by
                  have h12 := hx1.symm.trans hsk2
                  injection h12
                refine ⟨cs.takeWhile jsonWs ++ '[' :: preE, ?_, ?_, ?_, ?_⟩
                · conv_lhs => rw [hdec, hpreE]
                  simp [List.append_assoc]
                · exact ⟨'[', preE, skipWs_pre_build _ '[' preE (takeWhile_ws_all cs) (by decide)⟩
                · intro fs hfs
                  exact J.noConfusion hfs
                · intro t _
                  have hshape : (cs.takeWhile jsonWs ++ '[' :: preE) ++ t
                      = cs.takeWhile jsonWs ++ '[' :: (preE ++ t) := by
                    simp [List.append_assoc]
                  have e1 : skipWs ((cs.takeWhile jsonWs ++ '[' :: preE) ++ t)
                      = '[' :: (preE ++ t) := by
                    rw [hshape]
                    exact skipWs_pre_build _ '[' _ (takeWhile_ws_all cs) (by decide)
                  rw [parseValue_cons f _ '[' _ e1]
                  unfold valDispatch
                  rw [if_neg (by decide), if_pos rfl]
                  have e2 : skipWs (preE ++ t) = c2 :: (xs ++ t) := by
                    rw [← hxc]
                    exact skipWs_cons_append preE t x xs hxs
                  simp [e2, hcb, hfamE t]
        · by_cases hc3 : c = '"'
          · subst hc3
            rw [if_neg (by decide), if_neg (by decide), if_pos rfl] at h
            rcases hsc : scanStr [] cs1 with _ | ⟨s, restS⟩
            · simp only [hsc] at h
              exact Option.noConfusion h
            · simp only [hsc, Option.some.injEq, Prod.mk.injEq] at h
              obtain ⟨hv, hr⟩ := h
              subst hv; subst hr
              obtain ⟨preS, hpreS, hfamS⟩ := scanStr_replace [] cs1 s restS hsc
              refine ⟨cs.takeWhile jsonWs ++ '"' :: preS, ?_, ?_, ?_, ?_⟩
              · conv_lhs => rw [hdec, hpreS]
                simp [List.append_assoc]
              · exact ⟨'"', preS, skipWs_pre_build _ '"' preS (takeWhile_ws_all cs) (by decide)⟩
              · intro fs hfs
                exact J.noConfusion hfs
              · intro t _
                have hshape : (cs.takeWhile jsonWs ++ '"' :: preS) ++ t
                    = cs.takeWhile jsonWs ++ '"' :: (preS ++ t) := by
                  simp [List.append_assoc]
                have e1 : skipWs ((cs.takeWhile jsonWs ++ '"' :: preS) ++ t)
                    = '"' :: (preS ++ t) := by
                  rw [hshape]
                  exact skipWs_pre_build _ '"' _ (takeWhile_ws_all cs) (by decide)
                rw [parseValue_cons f _ '"' _ e1]
                unfold valDispatch
                rw [if_neg (by decide), if_neg (by decide), if_pos rfl]
                simp [hfamS]
          · by_cases hc4 : c = 't'
            · subst hc4
              rw [if_neg (by decide), if_neg (by decide), if_neg (by decide),
                if_pos rfl] at h
              split at h
              · rename_i restT
                simp only [Option.some.injEq, Prod.mk.injEq] at h
                obtain ⟨hv, hr⟩ := h
                subst hv; subst hr
                refine ⟨cs.takeWhile jsonWs ++ 't' :: 'r' :: 'u' :: 'e' :: [],
                  ?_, ?_, ?_, ?_⟩
                · conv_lhs => rw [hdec]
                  simp [List.append_assoc]
                · exact ⟨'t', _, skipWs_pre_build _ 't' _ (takeWhile_ws_all cs) (by decide)⟩
                · intro fs hfs
                  exact J.noConfusion hfs
                · intro t _
                  have hshape : (cs.takeWhile jsonWs ++ 't' :: 'r' :: 'u' :: 'e' :: []) ++ t
                      = cs.takeWhile jsonWs ++ 't' :: ('r' :: 'u' :: 'e' :: t) := by
                    simp [List.append_assoc]
                  have e1 : skipWs ((cs.takeWhile jsonWs ++ 't' :: 'r' :: 'u' :: 'e' :: []) ++ t)
                      = 't' :: ('r' :: 'u' :: 'e' :: t) := by
                    rw [hshape]
                    exact skipWs_pre_build _ 't' _ (takeWhile_ws_all cs) (by decide)
                  rw [parseValue_cons f _ 't' _ e1]
                  unfold valDispatch
                  rw [if_neg (by decide), if_neg (by decide), if_neg (by decide),
                    if_pos rfl]
                  rfl
              · exact Option.noConfusion h
            · by_cases hc5 : c = 'f'
              · subst hc5
                rw [if_neg (by decide), if_neg (by decide), if_neg (by decide),
                  if_neg (by decide), if_pos rfl] at h
                split at h
                · rename_i restT
                  simp only [Option.some.injEq, Prod.mk.injEq] at h
                  obtain ⟨hv, hr⟩ := h
                  subst hv; subst hr
                  refine ⟨cs.takeWhile jsonWs ++ 'f' :: 'a' :: 'l' :: 's' :: 'e' :: [],
                    ?_, ?_, ?_, ?_⟩
                  · conv_lhs => rw [hdec]
                    simp [List.append_assoc]
                  · exact ⟨'f', _, skipWs_pre_build _ 'f' _ (takeWhile_ws_all cs) (by decide)⟩
                  · intro fs hfs
                    exact J.noConfusion hfs
                  · intro t _
                    have hshape :
                        (cs.takeWhile jsonWs ++ 'f' :: 'a' :: 'l' :: 's' :: 'e' :: []) ++ t
                        = cs.takeWhile jsonWs ++ 'f' :: ('a' :: 'l' :: 's' :: 'e' :: t) := by
                      simp [List.append_assoc]
                    have e1 : skipWs
                        ((cs.takeWhile jsonWs ++ 'f' :: 'a' :: 'l' :: 's' :: 'e' :: []) ++ t)
                        = 'f' :: ('a' :: 'l' :: 's' :: 'e' :: t) := by
                      rw [hshape]
                      exact skipWs_pre_build _ 'f' _ (takeWhile_ws_all cs) (by decide)
                    rw [parseValue_cons f _ 'f' _ e1]
                    unfold valDispatch
                    rw [if_neg (by decide), if_neg (by decide), if_neg (by decide),
                      if_neg (by decide), if_pos rfl]
                    rfl
                · exact Option.noConfusion h
              · by_cases hc6 : c = 'n'
                · subst hc6
                  rw [if_neg (by decide), if_neg (by decide), if_neg (by decide),
                    if_neg (by decide), if_neg (by decide), if_pos rfl] at h
                  split at h
                  · rename_i restT
                    simp only [Option.some.injEq, Prod.mk.injEq] at h
                    obtain ⟨hv, hr⟩ := h
                    subst hv; subst hr
                    refine ⟨cs.takeWhile jsonWs ++ 'n' :: 'u' :: 'l' :: 'l' :: [],
                      ?_, ?_, ?_, ?_⟩
                    · conv_lhs => rw [hdec]
                      simp [List.append_assoc]
                    · exact ⟨'n', _, skipWs_pre_build _ 'n' _ (takeWhile_ws_all cs) (by decide)⟩
                    · intro fs hfs
                      exact J.noConfusion hfs
                    · intro t _
                      have hshape :
                          (cs.takeWhile jsonWs ++ 'n' :: 'u' :: 'l' :: 'l' :: []) ++ t
                          = cs.takeWhile jsonWs ++ 'n' :: ('u' :: 'l' :: 'l' :: t) := by
                        simp [List.append_assoc]
                      have e1 : skipWs
                          ((cs.takeWhile jsonWs ++ 'n' :: 'u' :: 'l' :: 'l' :: []) ++ t)
                          = 'n' :: ('u' :: 'l' :: 'l' :: t) := by
                        rw [hshape]
                        exact skipWs_pre_build _ 'n' _ (takeWhile_ws_all cs) (by decide)
                      rw [parseValue_cons f _ 'n' _ e1]
                      unfold valDispatch
                      rw [if_neg (by decide), if_neg (by decide), if_neg (by decide),
                        if_neg (by decide), if_neg (by decide), if_pos rfl]
                      rfl
                  · exact Option.noConfusion h
                · by_cases hnum : (c = '-' || c.isDigit) = true
                  · rw [if_neg hc1, if_neg hc2, if_neg hc3, if_neg hc4, if_neg hc5,
                      if_neg hc6, if_pos hnum] at h
                    simp only [Option.some.injEq, Prod.mk.injEq] at h
                    obtain ⟨hv, hr⟩ := h
                    subst hv; subst hr
                    refine ⟨cs.takeWhile jsonWs ++ c :: cs1.takeWhile numChar,
                      ?_, ?_, ?_, ?_⟩
                    · conv_lhs =>
                        rw [hdec,
                          ← List.takeWhile_append_dropWhile (p := numChar) (l := cs1)]
                      simp [List.append_assoc]
                    · exact ⟨c, _, skipWs_pre_build _ c _ (takeWhile_ws_all cs) hcws⟩
                    · intro fs hfs
                      exact J.noConfusion hfs
                    · intro t hbt
                      have hshape : (cs.takeWhile jsonWs ++ c :: cs1.takeWhile numChar) ++ t
                          = cs.takeWhile jsonWs ++ c :: (cs1.takeWhile numChar ++ t) := by
                        simp [List.append_assoc]
                      have e1 : skipWs ((cs.takeWhile jsonWs ++ c :: cs1.takeWhile numChar) ++ t)
                          = c :: (cs1.takeWhile numChar ++ t) := by
                        rw [hshape]
                        exact skipWs_pre_build _ c _ (takeWhile_ws_all cs) hcws
                      rw [parseValue_cons f _ c _ e1]
                      unfold valDispatch
                      rw [if_neg hc1, if_neg hc2, if_neg hc3, if_neg hc4, if_neg hc5,
                        if_neg hc6, if_pos hnum]
                      have htw : ∀ y ∈ cs1.takeWhile numChar, numChar y = true :=
                        fun y hy => List.mem_takeWhile_imp hy
                      cases t with
                      | nil =>
                        obtain ⟨h1, h2⟩ := takeWhile_all_self numChar _ htw
                        simp [h1, h2]
                      | cons c0 t' =>
                        have hnb : numChar c0 = false := by
                          simpa [numBoundary] using hbt
                        obtain ⟨h1, h2⟩ :=
                          takeWhile_all_stop numChar (cs1.takeWhile numChar) t' c0 htw hnb
                        simp [h1, h2]
                  · rw [if_neg hc1, if_neg hc2, if_neg hc3, if_neg hc4, if_neg hc5,
                      if_neg hc6, if_neg hnum] at h
                    exact Option.noConfusion h
    · -- parseElems
      intro cs es rest h
      rw [parseElems_succ] at h
      rcases hpv : parseValue f cs with _ | ⟨v, restV⟩
      · simp only [hpv] at h
        exact Option.noConfusion h
      · simp only [hpv] at h
        obtain ⟨preV, hpreV, ⟨x, xs, hxs⟩, _, hfamV⟩ := ihV cs v restV hpv
        unfold elemsCont at h
        rcases hsk2 : skipWs restV with _ | ⟨c2, r2⟩
        · simp only [hsk2] at h
          exact Option.noConfusion h
        · simp only [hsk2] at h
          have hdec2 := skipWs_decomp restV c2 r2 hsk2
          by_cases hcm : c2 = ','
          · subst hcm
            rw [if_pos rfl] at h
            rcases hpe : parseElems f r2 with _ | ⟨es2, restE⟩
            · simp only [hpe] at h
              exact Option.noConfusion h
            · simp only [hpe, Option.some.injEq, Prod.mk.injEq] at h
              obtain ⟨hv, hr⟩ := h
              subst hv; subst hr
              obtain ⟨preE, hpreE, ⟨y, ys, hys⟩, hfamE⟩ := ihE r2 es2 restE hpe
              refine ⟨preV ++ (restV.takeWhile jsonWs ++ ',' :: preE), ?_, ?_, ?_⟩
              · conv_lhs => rw [hpreV, hdec2, hpreE]
                simp [List.append_assoc]
              · exact ⟨x, xs ++ (restV.takeWhile jsonWs ++ ',' :: preE),
                  skipWs_cons_append preV _ x xs hxs⟩
              · intro t
                rw [parseElems_succ]
                have hshape : (preV ++ (restV.takeWhile jsonWs ++ ',' :: preE)) ++ t
                    = preV ++ (restV.takeWhile jsonWs ++ ',' :: (preE ++ t)) := by
                  simp [List.append_assoc]
                rw [hshape]
                have hbv : numBoundary v (restV.takeWhile jsonWs ++ ',' :: (preE ++ t)) :=
                  numBoundary_build v _ _ ',' (takeWhile_ws_all restV) (by decide)
                have hv1 := hfamV (restV.takeWhile jsonWs ++ ',' :: (preE ++ t)) hbv
                have e3 : skipWs (restV.takeWhile jsonWs ++ ',' :: (preE ++ t))
                    = ',' :: (preE ++ t) :=
                  skipWs_pre_build _ ',' _ (takeWhile_ws_all restV) (by decide)
                simp [hv1, elemsCont, e3, hfamE t]
          · by_cases hcb : c2 = ']'
            · subst hcb
              rw [if_neg hcm, if_pos rfl] at h
              simp only [Option.some.injEq, Prod.mk.injEq] at h
              obtain ⟨hv, hr⟩ := h
              subst hv; subst hr
              refine ⟨preV ++ (restV.takeWhile jsonWs ++ [']']), ?_, ?_, ?_⟩
              · conv_lhs => rw [hpreV, hdec2]
                simp [List.append_assoc]
              · exact ⟨x, xs ++ (restV.takeWhile jsonWs ++ [']']),
                  skipWs_cons_append preV _ x xs hxs⟩
              · intro t
                rw [parseElems_succ]
                have hshape : (preV ++ (restV.takeWhile jsonWs ++ [']'])) ++ t
                    = preV ++ (restV.takeWhile jsonWs ++ ']' :: t) := by
                  simp [List.append_assoc]
                rw [hshape]
                have hbv : numBoundary v (restV.takeWhile jsonWs ++ ']' :: t) :=
                  numBoundary_build v _ _ ']' (takeWhile_ws_all restV) (by decide)
                have hv1 := hfamV (restV.takeWhile jsonWs ++ ']' :: t) hbv
                have e3 : skipWs (restV.takeWhile jsonWs ++ ']' :: t) = ']' :: t :=
                  skipWs_pre_build _ ']' _ (takeWhile_ws_all restV) (by decide)
                simp [hv1, elemsCont, e3]
            · rw [if_neg hcm, if_neg hcb] at h
              exact Option.noConfusion h
    · -- parseMembers
      intro cs ms rest h
      rcases hsk0 : skipWs cs with _ | ⟨c0, cs1⟩
      · rw [parseMembers_nil f cs hsk0] at h
        exact Option.noConfusion h
      rw [parseMembers_cons f cs c0 cs1 hsk0] at h
      have hdec0 := skipWs_decomp cs c0 cs1 hsk0
      unfold membersBody at h
      by_cases hq : c0 = '"'
      · subst hq
        rw [if_pos rfl] at h
        rcases hsc : scanStr [] cs1 with _ | ⟨k, restS⟩
        · simp only [hsc] at h
          exact Option.noConfusion h
        · simp only [hsc] at h
          obtain ⟨preS, hpreS, hfamS⟩ := scanStr_replace [] cs1 k restS hsc
          rcases hskB : skipWs restS with _ | ⟨c1, r2⟩
          · simp only [hskB] at h
            exact Option.noConfusion h
          · simp only [hskB] at h
            have hdecB := skipWs_decomp restS c1 r2 hskB
            by_cases hcol : c1 = ':'
            · subst hcol
              rw [if_pos rfl] at h
              rcases hpv : parseValue f r2 with _ | ⟨v, restV⟩
              · simp only [hpv] at h
                exact Option.noConfusion h
              · simp only [hpv] at h
                obtain ⟨preV, hpreV, ⟨y, ys, hys⟩, _, hfamV⟩ := ihV r2 v restV hpv
                rcases hskC : skipWs restV with _ | ⟨c3, r4⟩
                · simp only [hskC] at h
                  exact Option.noConfusion h
                · simp only [hskC] at h
                  have hdecC := skipWs_decomp restV c3 r4 hskC
                  by_cases hcm : c3 = ','
                  · subst hcm
                    rw [if_pos rfl] at h
                    rcases hm2 : parseMembers f r4 with _ | ⟨ms2, restM⟩
                    · simp only [hm2] at h
                      exact Option.noConfusion h
                    · simp only [hm2, Option.some.injEq, Prod.mk.injEq] at h
                      obtain ⟨hv, hr⟩ := h
                      subst hv; subst hr
                      obtain ⟨preM2, hpreM2, ⟨z, zs, hzs⟩, ⟨pM2, hpM2⟩, hfamM2⟩ :=
                        ihM r4 ms2 restM hm2
                      refine ⟨cs.takeWhile jsonWs ++ '"' ::
                        (preS ++ (restS.takeWhile jsonWs ++ ':' ::
                          (preV ++ (restV.takeWhile jsonWs ++ ',' :: preM2)))), ?_, ?_, ?_, ?_⟩
                      · conv_lhs => rw [hdec0, hpreS, hdecB, hpreV, hdecC, hpreM2]
                        simp [List.append_assoc]
                      · exact ⟨'"', _, skipWs_pre_build _ '"' _ (takeWhile_ws_all cs) (by decide)⟩
                      · refine ⟨cs.takeWhile jsonWs ++ '"' ::
                          (preS ++ (restS.takeWhile jsonWs ++ ':' ::
                            (preV ++ (restV.takeWhile jsonWs ++ ',' :: pM2)))), ?_⟩
                        rw [hpM2]
                        simp [List.append_assoc]
                      · intro t
                        have hshape : (cs.takeWhile jsonWs ++ '"' ::
                            (preS ++ (restS.takeWhile jsonWs ++ ':' ::
                              (preV ++ (restV.takeWhile jsonWs ++ ',' :: preM2))))) ++ t
                            = cs.takeWhile jsonWs ++ '"' ::
                            (preS ++ (restS.takeWhile jsonWs ++ ':' ::
                              (preV ++ (restV.takeWhile jsonWs ++ ',' :: (preM2 ++ t))))) := by
                          simp [List.append_assoc]
                        have e0 : skipWs ((cs.takeWhile jsonWs ++ '"' ::
                            (preS ++ (restS.takeWhile jsonWs ++ ':' ::
                              (preV ++ (restV.takeWhile jsonWs ++ ',' :: preM2))))) ++ t)
                            = '"' :: (preS ++ (restS.takeWhile jsonWs ++ ':' ::
                              (preV ++ (restV.takeWhile jsonWs ++ ',' :: (preM2 ++ t))))) := by
                          rw [hshape]
                          exact skipWs_pre_build _ '"' _ (takeWhile_ws_all cs) (by decide)
                        rw [parseMembers_cons f _ '"' _ e0]
                        have e1 : skipWs (restS.takeWhile jsonWs ++ ':' ::
                            (preV ++ (restV.takeWhile jsonWs ++ ',' :: (preM2 ++ t))))
                            = ':' :: (preV ++ (restV.takeWhile jsonWs ++ ',' :: (preM2 ++ t))) :=
                          skipWs_pre_build _ ':' _ (takeWhile_ws_all restS) (by decide)
                        have hbv : numBoundary v
                            (restV.takeWhile jsonWs ++ ',' :: (preM2 ++ t)) :=
                          numBoundary_build v _ _ ',' (takeWhile_ws_all restV) (by decide)
                        have hv1 := hfamV (restV.takeWhile jsonWs ++ ',' :: (preM2 ++ t)) hbv
                        have e2 : skipWs (restV.takeWhile jsonWs ++ ',' :: (preM2 ++ t))
                            = ',' :: (preM2 ++ t) :=
                          skipWs_pre_build _ ',' _ (takeWhile_ws_all restV) (by decide)
                        simp [membersBody, hfamS, e1, hv1, e2, hfamM2 t]
                  · by_cases hcb : c3 = '}'
                    · subst hcb
                      rw [if_neg hcm, if_pos rfl] at h
                      simp only [Option.some.injEq, Prod.mk.injEq] at h
                      obtain ⟨hv, hr⟩ := h
                      subst hv; subst hr
                      refine ⟨cs.takeWhile jsonWs ++ '"' ::
                        (preS ++ (restS.takeWhile jsonWs ++ ':' ::
                          (preV ++ (restV.takeWhile jsonWs ++ ['}'])))), ?_, ?_, ?_, ?_⟩
                      · conv_lhs => rw [hdec0, hpreS, hdecB, hpreV, hdecC]
                        simp [List.append_assoc]
                      · exact ⟨'"', _, skipWs_pre_build _ '"' _ (takeWhile_ws_all cs) (by decide)⟩
                      · refine ⟨cs.takeWhile jsonWs ++ '"' ::
                          (preS ++ (restS.takeWhile jsonWs ++ ':' ::
                            (preV ++ restV.takeWhile jsonWs))), ?_⟩
                        simp [List.append_assoc]
                      · intro t
                        have hshape : (cs.takeWhile jsonWs ++ '"' ::
                            (preS ++ (restS.takeWhile jsonWs ++ ':' ::
                              (preV ++ (restV.takeWhile jsonWs ++ ['}']))))) ++ t
                            = cs.takeWhile jsonWs ++ '"' ::
                            (preS ++ (restS.takeWhile jsonWs ++ ':' ::
                              (preV ++ (restV.takeWhile jsonWs ++ '}' :: t)))) := by
                          simp [List.append_assoc]
                        have e0 : skipWs ((cs.takeWhile jsonWs ++ '"' ::
                            (preS ++ (restS.takeWhile jsonWs ++ ':' ::
                              (preV ++ (restV.takeWhile jsonWs ++ ['}']))))) ++ t)
                            = '"' :: (preS ++ (restS.takeWhile jsonWs ++ ':' ::
                              (preV ++ (restV.takeWhile jsonWs ++ '}' :: t)))) := by
                          rw [hshape]
                          exact skipWs_pre_build _ '"' _ (takeWhile_ws_all cs) (by decide)
                        rw [parseMembers_cons f _ '"' _ e0]
                        have e1 : skipWs (restS.takeWhile jsonWs ++ ':' ::
                            (preV ++ (restV.takeWhile jsonWs ++ '}' :: t)))
                            = ':' :: (preV ++ (restV.takeWhile jsonWs ++ '}' :: t)) :=
                          skipWs_pre_build _ ':' _ (takeWhile_ws_all restS) (by decide)
                        have hbv : numBoundary v (restV.takeWhile jsonWs ++ '}' :: t) :=
                          numBoundary_build v _ _ '}' (takeWhile_ws_all restV) (by decide)
                        have hv1 := hfamV (restV.takeWhile jsonWs ++ '}' :: t) hbv
                        have e2 : skipWs (restV.takeWhile jsonWs ++ '}' :: t) = '}' :: t :=
                          skipWs_pre_build _ '}' _ (takeWhile_ws_all restV) (by decide)
                        simp [membersBody, hfamS, e1, hv1, e2]
                    · rw [if_neg hcm, if_neg hcb] at h
                      exact Option.noConfusion h
            · rw [if_neg hcol] at h
              exact Option.noConfusion h
      · rw [if_neg hq] at h
        exact Option.noConfusion h

/-- Fuel monotonicity: a successful parse stays successful (with the same
result) when one more unit of fuel is available. -/
theorem parse_mono (f : Nat) :
    (∀ cs r, parseValue f cs = some r → parseValue (f + 1) cs = some r) ∧
    (∀ cs r, parseElems f cs = some r → parseElems (f + 1) cs = some r) ∧
    (∀ cs r, parseMembers f cs = some r → parseMembers (f + 1) cs = some r) := by
  induction f with
  | zero =>
    refine ⟨?_, ?_, ?_⟩ <;> intro cs r h <;> exact Option.noConfusion h
  | succ f ih =>
    obtain ⟨ihV, ihE, ihM⟩ := ih
    refine ⟨?_, ?_, ?_⟩
    · intro cs r h
      rcases hsk : skipWs cs with _ | ⟨c, cs1⟩
      · rw [parseValue_nil f cs hsk] at h
        exact Option.noConfusion h
      rw [parseValue_cons f cs c cs1 hsk] at h
      rw [parseValue_cons (f + 1) cs c cs1 hsk]
      unfold valDispatch at h ⊢
      by_cases hc1 : c = '{'
      · rw [if_pos hc1] at h ⊢
        rcases hsk2 : skipWs cs1 with _ | ⟨c2, r2⟩
        · simp only [hsk2] at h
          exact Option.noConfusion h
        · simp only [hsk2] at h ⊢
          by_cases hc2 : c2 = '}'
          · rw [if_pos hc2] at h ⊢
            exact h
          · rw [if_neg hc2] at h ⊢
            rcases hm : parseMembers f cs1 with _ | ⟨p⟩
            · simp only [hm] at h
              exact Option.noConfusion h
            · simp only [hm] at h
              simp only [ihM cs1 p hm]
              exact h
      · by_cases hc2 : c = '['
        · rw [if_neg hc1, if_pos hc2] at h ⊢
          rcases hsk2 : skipWs cs1 with _ | ⟨c2, r2⟩
          · simp only [hsk2] at h
            exact Option.noConfusion h
          · simp only [hsk2] at h ⊢
            by_cases hcb : c2 = ']'
            · rw [if_pos hcb] at h ⊢
              exact h
            · rw [if_neg hcb] at h ⊢
              rcases he : parseElems f cs1 with _ | ⟨p⟩
              · simp only [he] at h
                exact Option.noConfusion h
              · simp only [he] at h
                simp only [ihE cs1 p he]
                exact h
        · rw [if_neg hc1, if_neg hc2] at h ⊢
          exact h
    · intro cs r h
      rw [parseElems_succ] at h
      rw [parseElems_succ]
      rcases hpv : parseValue f cs with _ | ⟨p⟩
      · simp only [hpv] at h
        exact Option.noConfusion h
      · obtain ⟨v, restV⟩ := p
        simp only [hpv] at h
        simp only [ihV cs (v, restV) hpv]
        unfold elemsCont at h ⊢
        rcases hsk2 : skipWs restV with _ | ⟨c2, r2⟩
        · simp only [hsk2] at h
          exact Option.noConfusion h
        · simp only [hsk2] at h ⊢
          by_cases hcm : c2 = ','
          · rw [if_pos hcm] at h ⊢
            rcases hpe : parseElems f r2 with _ | ⟨p2⟩
            · simp only [hpe] at h
              exact Option.noConfusion h
            · simp only [hpe] at h
              simp only [ihE r2 p2 hpe]
              exact h
          · rw [if_neg hcm] at h ⊢
            exact h
    · intro cs r h
      rcases hsk0 : skipWs cs with _ | ⟨c0, cs1⟩
      · rw [parseMembers_nil f cs hsk0] at h
        exact Option.noConfusion h
      rw [parseMembers_cons f cs c0 cs1 hsk0] at h
      rw [parseMembers_cons (f + 1) cs c0 cs1 hsk0]
      unfold membersBody at h ⊢
      by_cases hq : c0 = '"'
      · rw [if_pos hq] at h ⊢
        rcases hsc : scanStr [] cs1 with _ | ⟨p⟩
        · simp only [hsc] at h
          exact Option.noConfusion h
        · obtain ⟨k, restS⟩ := p
          simp only [hsc] at h ⊢
          rcases hskB : skipWs restS with _ | ⟨c1, r2⟩
          · simp only [hskB] at h
            exact Option.noConfusion h
          · simp only [hskB] at h ⊢
            by_cases hcol : c1 = ':'
            · rw [if_pos hcol] at h ⊢
              rcases hpv : parseValue f r2 with _ | ⟨p2⟩
              · simp only [hpv] at h
                exact Option.noConfusion h
              · obtain ⟨v, restV⟩ := p2
                simp only [hpv] at h
                simp only [ihV r2 (v, restV) hpv]
                rcases hskC : skipWs restV with _ | ⟨c3, r4⟩
                · simp only [hskC] at h
                  exact Option.noConfusion h
                · simp only [hskC] at h ⊢
                  by_cases hcm : c3 = ','
                  · rw [if_pos hcm] at h ⊢
                    rcases hm2 : parseMembers f r4 with _ | ⟨p3⟩
                    · simp only [hm2] at h
                      exact Option.noConfusion h
                    · simp only [hm2] at h
                      simp only [ihM r4 p3 hm2]
                      exact h
                  · rw [if_neg hcm] at h ⊢
                    exact h
            · rw [if_neg hcol] at h ⊢
              exact h
      · rw [if_neg hq] at h ⊢
        exact h

/-- Fuel monotonicity, `≤` form, for the value parser. -/
theorem parseValue_mono_le (f f' : Nat) (hle : f ≤ f') (cs : List Char)
    (r : J × List Char) (h : parseValue f cs = some r) :
    parseValue f' cs = some r := by
  induction f' with
  | zero =>
    have : f = 0 := Nat.le_zero.mp hle
    subst this
    exact h
  | succ f' ih =>
    rcases Nat.lt_or_ge f (f' + 1) with hlt | hge
    · exact (parse_mono f').1 cs r (ih (Nat.lt_succ_iff.mp hlt))
    · have : f = f' + 1 := Nat.le_antisymm hle hge
      subst this
      exact h

/-- Fuel monotonicity, `≤` form, for the element parser. -/
theorem parseElems_mono_le (f f' : Nat) (hle : f ≤ f') (cs : List Char)
    (r : List J × List Char) (h : parseElems f cs = some r) :
    parseElems f' cs = some r := by
  induction f' with
  | zero =>
    have : f = 0 := Nat.le_zero.mp hle
    subst this
    exact h
  | succ f' ih =>
    rcases Nat.lt_or_ge f (f' + 1) with hlt | hge
    · exact (parse_mono f').2.1 cs r (ih (Nat.lt_succ_iff.mp hlt))
    · have : f = f' + 1 := Nat.le_antisymm hle hge
      subst this
      exact h

/-- Fuel monotonicity, `≤` form, for the member parser. -/
theorem parseMembers_mono_le (f f' : Nat) (hle : f ≤ f') (cs : List Char)
    (r : List (String × J) × List Char) (h : parseMembers f cs = some r) :
    parseMembers f' cs = some r := by
  induction f' with
  | zero =>
    have : f = 0 := Nat.le_zero.mp hle
    subst this
    exact h
  | succ f' ih =>
    rcases Nat.lt_or_ge f (f' + 1) with hlt | hge
    · exact (parse_mono f').2.2 cs r (ih (Nat.lt_succ_iff.mp hlt))
    · have : f = f' + 1 := Nat.le_antisymm hle hge
      subst this
      exact h

/-- Fuel adequacy: a parse that succeeds with some fuel also succeeds with
fuel one more than the length of the consumed prefix.  (The consumed
prefix is passed explicitly as `pre`.) -/
theorem parse_min_fuel (g : Nat) :
    (∀ cs v rest, parseValue g cs = some (v, rest) →
      ∀ pre, cs = pre ++ rest → parseValue (pre.length + 1) cs = some (v, rest)) ∧
    (∀ cs es rest, parseElems g cs = some (es, rest) →
      ∀ pre, cs = pre ++ rest → parseElems (pre.length + 1) cs = some (es, rest)) ∧
    (∀ cs ms rest, parseMembers g cs = some (ms, rest) →
      ∀ pre, cs = pre ++ rest → parseMembers (pre.length + 1) cs = some (ms, rest)) := by
  induction g with
  | zero =>
    refine ⟨?_, ?_, ?_⟩ <;> intro cs a rest h <;> exact Option.noConfusion h
  | succ g ih =>
    obtain ⟨ihV, ihE, ihM⟩ := ih
    refine ⟨?_, ?_, ?_⟩
    · intro cs v rest h pre hpre
      rcases hsk : skipWs cs with _ | ⟨c, cs1⟩
      · rw [parseValue_nil g cs hsk] at h
        exact Option.noConfusion h
      have hdec := skipWs_decomp cs c cs1 hsk
      rw [parseValue_cons g cs c cs1 hsk] at h
      rw [parseValue_cons pre.length cs c cs1 hsk]
      unfold valDispatch at h ⊢
      by_cases hc1 : c = '{'
      · rw [if_pos hc1] at h ⊢
        rcases hsk2 : skipWs cs1 with _ | ⟨c2, r2⟩
        · simp only [hsk2] at h
          exact Option.noConfusion h
        · simp only [hsk2] at h ⊢
          by_cases hc2 : c2 = '}'
          · rw [if_pos hc2] at h ⊢
            exact h
          · rw [if_neg hc2] at h ⊢
            rcases hm : parseMembers g cs1 with _ | ⟨p⟩
            · simp only [hm] at h
              exact Option.noConfusion h
            · obtain ⟨ms, restM⟩ := p
              simp only [hm, Option.some.injEq, Prod.mk.injEq] at h
              obtain ⟨hv, hr⟩ := h
              subst hv; subst hr
              obtain ⟨preR, hpreR, _, _, _⟩ := (parse_replace g).2.2 cs1 ms restM hm
              have hX : cs = (cs.takeWhile jsonWs ++ c :: preR) ++ restM := by
                conv_lhs => rw [hdec, hpreR]
                simp [List.append_assoc]
              have hpre2 : pre = cs.takeWhile jsonWs ++ c :: preR :=
                List.append_cancel_right (hpre.symm.trans hX)
              have hlen : preR.length + 1 ≤ pre.length := by
                rw [hpre2]; simp [List.length_append]; try omega
              have hm3 := parseMembers_mono_le (preR.length + 1) pre.length hlen cs1
                (ms, restM) (ihM cs1 ms restM hm preR hpreR)
              simp only [hm3]
      · by_cases hc2 : c = '['
        · rw [if_neg hc1, if_pos hc2] at h ⊢
          rcases hsk2 : skipWs cs1 with _ | ⟨c2, r2⟩
          · simp only [hsk2] at h
            exact Option.noConfusion h
          · simp only [hsk2] at h ⊢
            by_cases hcb : c2 = ']'
            · rw [if_pos hcb] at h ⊢
              exact h
            · rw [if_neg hcb] at h ⊢
              rcases he : parseElems g cs1 with _ | ⟨p⟩
              · simp only [he] at h
                exact Option.noConfusion h
              · obtain ⟨es, restE⟩ := p
                simp only [he, Option.some.injEq, Prod.mk.injEq] at h
                obtain ⟨hv, hr⟩ := h
                subst hv; subst hr
                obtain ⟨preR, hpreR, _, _⟩ := (parse_replace g).2.1 cs1 es restE he
                have hX : cs = (cs.takeWhile jsonWs ++ c :: preR) ++ restE := by
                  conv_lhs => rw [hdec, hpreR]
                  simp [List.append_assoc]
                have hpre2 : pre = cs.takeWhile jsonWs ++ c :: preR :=
                  List.append_cancel_right (hpre.symm.trans hX)
                have hlen : preR.length + 1 ≤ pre.length := by
                  rw [hpre2]; simp [List.length_append]; try omega
                have he3 := parseElems_mono_le (preR.length + 1) pre.length hlen cs1
                  (es, restE) (ihE cs1 es restE he preR hpreR)
                simp only [he3]
        · rw [if_neg hc1, if_neg hc2] at h ⊢
          exact h
    · intro cs es rest h pre hpre
      rw [parseElems_succ] at h
      rw [parseElems_succ]
      rcases hpv : parseValue g cs with _ | ⟨p⟩
      · simp only [hpv] at h
        exact Option.noConfusion h
      obtain ⟨v, restV⟩ := p
      simp only [hpv] at h
      obtain ⟨preV, hpreV, _, _, _⟩ := (parse_replace g).1 cs v restV hpv
      have hVmin := ihV cs v restV hpv preV hpreV
      unfold elemsCont at h
      rcases hsk2 : skipWs restV with _ | ⟨c2, r2⟩
      · simp only [hsk2] at h
        exact Option.noConfusion h
      simp only [hsk2] at h
      have hdec2 := skipWs_decomp restV c2 r2 hsk2
      by_cases hcm : c2 = ','
      · rw [if_pos hcm] at h
        rcases hpe : parseElems g r2 with _ | ⟨p2⟩
        · simp only [hpe] at h
          exact Option.noConfusion h
        obtain ⟨es2, restE⟩ := p2
        simp only [hpe, Option.some.injEq, Prod.mk.injEq] at h
        obtain ⟨hv, hr⟩ := h
        subst hv; subst hr
        obtain ⟨preE, hpreE, _, _⟩ := (parse_replace g).2.1 r2 es2 restE hpe
        have hX : cs = (preV ++ (restV.takeWhile jsonWs ++ c2 :: preE)) ++ restE := by
          conv_lhs => rw [hpreV, hdec2, hpreE]
          simp [List.append_assoc]
        have hpre2 : pre = preV ++ (restV.takeWhile jsonWs ++ c2 :: preE) :=
          List.append_cancel_right (hpre.symm.trans hX)
        have hlenV : preV.length + 1 ≤ pre.length := by
          rw [hpre2]; simp [List.length_append]; try omega
        have hlenE : preE.length + 1 ≤ pre.length := by
          rw [hpre2]; simp [List.length_append]; try omega
        have hVm := parseValue_mono_le (preV.length + 1) pre.length hlenV cs
          (v, restV) hVmin
        simp only [hVm]
        unfold elemsCont
        simp only [hsk2]
        rw [if_pos hcm]
        have hEm := parseElems_mono_le (preE.length + 1) pre.length hlenE r2
          (es2, restE) (ihE r2 es2 restE hpe preE hpreE)
        simp only [hEm]
      · by_cases hcb : c2 = ']'
        · rw [if_neg hcm, if_pos hcb] at h
          simp only [Option.some.injEq, Prod.mk.injEq] at h
          obtain ⟨hv, hr⟩ := h
          subst hv; subst hr
          have hX : cs = (preV ++ (restV.takeWhile jsonWs ++ [c2])) ++ r2 := by
            conv_lhs => rw [hpreV, hdec2]
            simp [List.append_assoc]
          have hpre2 : pre = preV ++ (restV.takeWhile jsonWs ++ [c2]) :=
            List.append_cancel_right (hpre.symm.trans hX)
          have hlenV : preV.length + 1 ≤ pre.length := by
            rw [hpre2]; simp [List.length_append]; try omega
          have hVm := parseValue_mono_le (preV.length + 1) pre.length hlenV cs
            (v, restV) hVmin
          simp only [hVm]
          unfold elemsCont
          simp only [hsk2]
          rw [if_neg hcm, if_pos hcb]
        · rw [if_neg hcm, if_neg hcb] at h
          exact Option.noConfusion h
    · intro cs ms rest h pre hpre
      rcases hsk0 : skipWs cs with _ | ⟨c0, cs1⟩
      · rw [parseMembers_nil g cs hsk0] at h
        exact Option.noConfusion h
      have hdec0 := skipWs_decomp cs c0 cs1 hsk0
      rw [parseMembers_cons g cs c0 cs1 hsk0] at h
      rw [parseMembers_cons pre.length cs c0 cs1 hsk0]
      unfold membersBody at h ⊢
      by_cases hq : c0 = '"'
      · rw [if_pos hq] at h ⊢
        rcases hsc : scanStr [] cs1 with _ | ⟨p⟩
        · simp only [hsc] at h
          exact Option.noConfusion h
        obtain ⟨k, restS⟩ := p
        simp only [hsc] at h ⊢
        obtain ⟨preS, hpreS, hfamS⟩ := scanStr_replace [] cs1 k restS hsc
        rcases hskB : skipWs restS with _ | ⟨c1, r2⟩
        · simp only [hskB] at h
          exact Option.noConfusion h
        simp only [hskB] at h ⊢
        have hdecB := skipWs_decomp restS c1 r2 hskB
        by_cases hcol : c1 = ':'
        · rw [if_pos hcol] at h ⊢
          rcases hpv : parseValue g r2 with _ | ⟨p2⟩
          · simp only [hpv] at h
            exact Option.noConfusion h
          obtain ⟨v, restV⟩ := p2
          simp only [hpv] at h
          obtain ⟨preV, hpreV, _, _, _⟩ := (parse_replace g).1 r2 v restV hpv
          have hVmin := ihV r2 v restV hpv preV hpreV
          rcases hskC : skipWs restV with _ | ⟨c3, r4⟩
          · simp only [hskC] at h
            exact Option.noConfusion h
          simp only [hskC] at h
          have hdecC := skipWs_decomp restV c3 r4 hskC
          by_cases hcm : c3 = ','
          · rw [if_pos hcm] at h
            rcases hm2 : parseMembers g r4 with _ | ⟨p3⟩
            · simp only [hm2] at h
              exact Option.noConfusion h
            obtain ⟨ms2, restM⟩ := p3
            simp only [hm2, Option.some.injEq, Prod.mk.injEq] at h
            obtain ⟨hv, hr⟩ := h
            subst hv; subst hr
            obtain ⟨preM2, hpreM2, _, _, _⟩ := (parse_replace g).2.2 r4 ms2 restM hm2
            have hX : cs = (cs.takeWhile jsonWs ++ c0 ::
                (preS ++ (restS.takeWhile jsonWs ++ c1 ::
                  (preV ++ (restV.takeWhile jsonWs ++ c3 :: preM2))))) ++ restM := by
              conv_lhs => rw [hdec0, hpreS, hdecB, hpreV, hdecC, hpreM2]
              simp [List.append_assoc]
            have hpre2 : pre = cs.takeWhile jsonWs ++ c0 ::
                (preS ++ (restS.takeWhile jsonWs ++ c1 ::
                  (preV ++ (restV.takeWhile jsonWs ++ c3 :: preM2)))) :=
              List.append_cancel_right (hpre.symm.trans hX)
            have hlenV : preV.length + 1 ≤ pre.length := by
              rw [hpre2]; simp [List.length_append]; try omega
            have hlenM : preM2.length + 1 ≤ pre.length := by
              rw [hpre2]; simp [List.length_append]; try omega
            have hVm := parseValue_mono_le (preV.length + 1) pre.length hlenV r2
              (v, restV) hVmin
            simp only [hVm, hskC]
            rw [if_pos hcm]
            have hMm := parseMembers_mono_le (preM2.length + 1) pre.length hlenM r4
              (ms2, restM) (ihM r4 ms2 restM hm2 preM2 hpreM2)
            simp only [hMm]
          · by_cases hcb : c3 = '}'
            · rw [if_neg hcm, if_pos hcb] at h
              simp only [Option.some.injEq, Prod.mk.injEq] at h
              obtain ⟨hv, hr⟩ := h
              subst hv; subst hr
              have hX : cs = (cs.takeWhile jsonWs ++ c0 ::
                  (preS ++ (restS.takeWhile jsonWs ++ c1 ::
                    (preV ++ (restV.takeWhile jsonWs ++ [c3]))))) ++ r4 := by
                conv_lhs => rw [hdec0, hpreS, hdecB, hpreV, hdecC]
                simp [List.append_assoc]
              have hpre2 : pre = cs.takeWhile jsonWs ++ c0 ::
                  (preS ++ (restS.takeWhile jsonWs ++ c1 ::
                    (preV ++ (restV.takeWhile jsonWs ++ [c3])))) :=
                List.append_cancel_right (hpre.symm.trans hX)
              have hlenV : preV.length + 1 ≤ pre.length := by
                rw [hpre2]; simp [List.length_append]; try omega
              have hVm := parseValue_mono_le (preV.length + 1) pre.length hlenV r2
                (v, restV) hVmin
              simp only [hVm, hskC]
              rw [if_neg hcm, if_pos hcb]
            · rw [if_neg hcm, if_neg hcb] at h
              exact Option.noConfusion h
        · rw [if_neg hcol] at h ⊢
          exact h
      · rw [if_neg hq] at h ⊢
        exact h

/-- A line of text that `json.loads` would accept as one JSON object
literal: the parse at canonical fuel yields an object with only
whitespace left. -/
def LineObjE (l : List Char) : Prop :=
  ∃ fs rest, parseValue (l.length + 1) l = some (J.obj fs, rest) ∧ skipWs rest = []

theorem jsonWs_pyWs (c : Char) (h : jsonWs c = true) : pyWs c = true := by
  simp [pyWs, h]

theorem dropWhile_append_of_all (p : Char → Bool) (a b : List Char)
    (h : ∀ x ∈ a, p x = true) : (a ++ b).dropWhile p = b.dropWhile p := by
  induction a with
  | nil => rfl
  | cons c a ih =>
    have hc : p c = true := h c (by simp)
    simp only [List.cons_append, List.dropWhile_cons, hc, if_true]
    exact ih fun x hx => h x (List.mem_cons_of_mem _ hx)

theorem skipWs_nil_all (r : List Char) (h : skipWs r = []) :
    ∀ x ∈ r, jsonWs x = true := by
  induction r with
  | nil => intro x hx; cases hx
  | cons c r ih =>
    by_cases hc : jsonWs c
    · intro x hx
      rcases List.mem_cons.mp hx with hx | hx
      · subst hx; exact hc
      · exact ih (by simpa [skipWs, List.dropWhile_cons, hc] using h) x hx
    · simp only [skipWs, List.dropWhile_cons] at h
      rw [if_neg (by simpa using hc)] at h
      cases h

theorem rstrip_append_ws (a b : List Char) (hb : ∀ x ∈ b, pyWs x = true) :
    rstrip (a ++ b) = rstrip a := by
  unfold rstrip
  rw [List.reverse_append, dropWhile_append_of_all pyWs b.reverse a.reverse
    (fun x hx => hb x (List.mem_reverse.mp hx))]

theorem rstrip_last_not (a : List Char) (c : Char) (hc : pyWs c = false) :
    rstrip (a ++ [c]) = a ++ [c] := by
  unfold rstrip
  rw [List.reverse_append]
  simp only [List.reverse_cons, List.reverse_nil, List.nil_append, List.cons_append,
    List.dropWhile_cons, hc]
  simp

/-- A parse that returns an object began (after whitespace) with `'{'`. -/
theorem parseValue_obj_head (f : Nat) (l : List Char) (fs : List (String × J))
    (rest : List Char) (h : parseValue f l = some (J.obj fs, rest)) :
    ∃ cs1, skipWs l = '{' :: cs1 := by
  cases f with
  | zero => exact Option.noConfusion h
  | succ f =>
    rcases hsk : skipWs l with _ | ⟨c, cs1⟩
    · rw [parseValue_nil f l hsk] at h
      exact Option.noConfusion h
    rw [parseValue_cons f l c cs1 hsk] at h
    unfold valDispatch at h
    by_cases hc1 : c = '{'
    · subst hc1; exact ⟨cs1, rfl⟩
    exfalso
    rw [if_neg hc1] at h
    by_cases hc2 : c = '['
    · rw [if_pos hc2] at h
      rcases hsk2 : skipWs cs1 with _ | ⟨c2, r2⟩
      · simp only [hsk2] at h
        exact Option.noConfusion h
      · simp only [hsk2] at h
        by_cases hcb : c2 = ']'
        · rw [if_pos hcb] at h
          simp at h
        · rw [if_neg hcb] at h
          rcases he : parseElems f cs1 with _ | ⟨p⟩
          · simp only [he] at h
            exact Option.noConfusion h
          · obtain ⟨es, restE⟩ := p
            simp only [he] at h
            simp at h
    rw [if_neg hc2] at h
    by_cases hc3 : c = '"'
    · rw [if_pos hc3] at h
      rcases hsc : scanStr [] cs1 with _ | ⟨p⟩
      · simp only [hsc] at h
        exact Option.noConfusion h
      · obtain ⟨s, restS⟩ := p
        simp only [hsc] at h
        simp at h
    rw [if_neg hc3] at h
    by_cases hc4 : c = 't'
    · rw [if_pos hc4] at h
      split at h
      · simp at h
      · exact Option.noConfusion h
    rw [if_neg hc4] at h
    by_cases hc5 : c = 'f'
    · rw [if_pos hc5] at h
      split at h
      · simp at h
      · exact Option.noConfusion h
    rw [if_neg hc5] at h
    by_cases hc6 : c = 'n'
    · rw [if_pos hc6] at h
      split at h
      · simp at h
      · exact Option.noConfusion h
    rw [if_neg hc6] at h
    by_cases hnum : (c = '-' || c.isDigit) = true
    · rw [if_pos hnum] at h
      simp at h
    · rw [if_neg hnum] at h
      exact Option.noConfusion h

theorem lineObjB_LineObjE (l : List Char) (h : lineObjB l = true) : LineObjE l := by
  have hjl : ∃ fs, json_loads l = some (J.obj fs) := by
    unfold lineObjB at h
    rcases hj : json_loads l with _ | v
    · rw [hj] at h
      cases h
    · cases v <;> rw [hj] at h <;> first | exact ⟨_, rfl⟩ | cases h
  obtain ⟨fs, hjl⟩ := hjl
  unfold json_loads at hjl
  rcases hp : parseValue (l.length + 1) l with _ | ⟨p⟩
  · simp only [hp] at hjl
    exact Option.noConfusion hjl
  · obtain ⟨v, rest⟩ := p
    simp only [hp] at hjl
    by_cases hws : skipWs rest = []
    · rw [if_pos hws] at hjl
      obtain rfl : v = J.obj fs := Option.some.inj hjl
      exact ⟨fs, rest, hp, hws⟩
    · rw [if_neg hws] at hjl
      exact Option.noConfusion hjl

theorem LineObjE_ne_nil (l : List Char) (h : LineObjE l) : l ≠ [] := by
  obtain ⟨fs, rest, hp, _⟩ := h
  obtain ⟨cs1, hsk⟩ := parseValue_obj_head _ l fs rest hp
  intro hnil
  subst hnil
  cases hsk

theorem LineObjE_not_allWs (l : List Char) (h : LineObjE l) :
    l.all pyWs = false := by
  obtain ⟨fs, rest, hp, _⟩ := h
  obtain ⟨cs1, hsk⟩ := parseValue_obj_head _ l fs rest hp
  have hdec := skipWs_decomp l '{' cs1 hsk
  cases hb : l.all pyWs with
  | false => rfl
  | true =>
    exfalso
    have hmem : '{' ∈ l := by
      rw [hdec]; exact List.mem_append_right _ (by simp)
    have := List.all_eq_true.mp hb '{' hmem
    exact absurd this (by decide)

theorem LineObjE_lstrip (l : List Char) (h : LineObjE l) :
    LineObjE (l.dropWhile pyWs) := by
  obtain ⟨fs, rest, hp, hws⟩ := h
  obtain ⟨cs1, hsk⟩ := parseValue_obj_head _ l fs rest hp
  have hdec := skipWs_decomp l '{' cs1 hsk
  have hpws : ∀ y ∈ l.takeWhile jsonWs, pyWs y = true :=
    fun y hy => jsonWs_pyWs y (takeWhile_ws_all l y hy)
  have hdrop : l.dropWhile pyWs = '{' :: cs1 := by
    conv_lhs => rw [hdec]
    exact (takeWhile_all_stop pyWs _ cs1 '{' hpws (by decide)).2
  have heq : parseValue (l.length + 1) ('{' :: cs1) = some (J.obj fs, rest) := by
    rw [parseValue_cons l.length l '{' cs1 hsk] at hp
    rw [parseValue_cons l.length ('{' :: cs1) '{' cs1
      (skipWs_cons_not '{' cs1 (by decide))]
    exact hp
  obtain ⟨pre, hpre, _, _, _⟩ :=
    (parse_replace (l.length + 1)).1 ('{' :: cs1) (J.obj fs) rest heq
  have hmin := (parse_min_fuel (l.length + 1)).1 ('{' :: cs1) (J.obj fs) rest heq pre hpre
  have hlen : pre.length + 1 ≤ ('{' :: cs1).length + 1 := by
    have : ('{' :: cs1).length = pre.length + rest.length := by
      rw [hpre]; simp
    omega
  have hfin := parseValue_mono_le (pre.length + 1) (('{' :: cs1).length + 1) hlen _ _ hmin
  refine ⟨fs, rest, ?_, hws⟩
  rw [hdrop]
  exact hfin

theorem LineObjE_rstrip (l : List Char) (h : LineObjE l) : LineObjE (rstrip l) := by
  obtain ⟨fs, rest, hp, hws⟩ := h
  obtain ⟨pre, hpre, _, hobj, hfam⟩ := (parse_replace (l.length + 1)).1 l (J.obj fs) rest hp
  obtain ⟨pM, hpM⟩ := hobj fs rfl
  have hparse_pre : parseValue (l.length + 1) (pre ++ []) = some (J.obj fs, []) :=
    hfam [] (numBoundary_nil _)
  rw [List.append_nil] at hparse_pre
  have hrestws : ∀ x ∈ rest, pyWs x = true :=
    fun x hx => jsonWs_pyWs x (skipWs_nil_all rest hws x hx)
  have hrs : rstrip l = pre := by
    rw [hpre, rstrip_append_ws pre rest hrestws, hpM,
      rstrip_last_not pM '}' (by decide)]
  have hmin := (parse_min_fuel (l.length + 1)).1 pre (J.obj fs) [] hparse_pre pre
    (by simp)
  refine ⟨fs, [], ?_, rfl⟩
  rw [hrs]
  exact hmin

theorem numBoundary_obj (fs : List (String × J)) (t : List Char) :
    numBoundary (J.obj fs) t := by
  cases t <;> simp [numBoundary]

/-- Joining object-parsing segments with commas parses as the concatenated
element list: the heart of the round-trip count law. -/
theorem elems_join : ∀ (segs : List (List Char)) (F : Nat),
    segs ≠ [] → (∀ s ∈ segs, LineObjE s) →
    (joinComma segs).length + 2 ≤ F →
    ∃ vs, parseElems F (joinComma segs ++ [']']) = some (vs, []) ∧
      vs.length = segs.length ∧ ∀ v ∈ vs, J.isObjB v = true := by
  intro segs
  induction segs with
  | nil => intro F hne _ _; exact absurd rfl hne
  | cons a t ih =>
    intro F _ hobj hF
    obtain ⟨fs, restA, hpa, hwsA⟩ := hobj a (by simp)
    obtain ⟨F', rfl⟩ : ∃ F', F = F' + 1 := by
      cases F with
      | zero => exact absurd hF (by omega)
      | succ F' => exact ⟨F', rfl⟩
    cases t with
    | nil =>
      have hj : joinComma [a] = a := rfl
      have hlena : a.length + 1 ≤ F' := by
        have h0 : (joinComma [a]).length = a.length := by rw [hj]
        omega
      have hpaF : parseValue F' a = some (J.obj fs, restA) :=
        parseValue_mono_le _ _ hlena a _ hpa
      obtain ⟨pre, hpre, _, _, hfam⟩ := (parse_replace F').1 a _ _ hpaF
      refine ⟨[J.obj fs], ?_, by simp, by simp [J.isObjB]⟩
      rw [parseElems_succ]
      have hv1 := hfam (restA ++ [']']) (numBoundary_obj fs _)
      have hshape : joinComma [a] ++ [']'] = pre ++ (restA ++ [']']) := by
        rw [hj, hpre]; simp [List.append_assoc]
      rw [hshape]
      simp only [hv1]
      unfold elemsCont
      have e3 : skipWs (restA ++ ']' :: []) = ']' :: [] :=
        skipWs_pre_build restA ']' [] (skipWs_nil_all restA hwsA) (by decide)
      simp [e3]
    | cons b t' =>
      have hj : joinComma (a :: b :: t') = a ++ ',' :: joinComma (b :: t') := rfl
      have hlj : (joinComma (a :: b :: t')).length
          = a.length + ((joinComma (b :: t')).length + 1) := by
        rw [hj]; simp [List.length_append]
      have hlena : a.length + 1 ≤ F' := by omega
      have hpaF : parseValue F' a = some (J.obj fs, restA) :=
        parseValue_mono_le _ _ hlena a _ hpa
      obtain ⟨pre, hpre, _, _, hfam⟩ := (parse_replace F').1 a _ _ hpaF
      obtain ⟨vs', hvs', hlen', hall'⟩ := ih F' (by simp)
        (fun s hs => hobj s (by simp [hs])) (by omega)
      refine ⟨J.obj fs :: vs', ?_, by simp [hlen'], ?_⟩
      · rw [parseElems_succ]
        have hv1 := hfam (restA ++ ',' :: (joinComma (b :: t') ++ [']']))
          (numBoundary_obj fs _)
        have hshape : joinComma (a :: b :: t') ++ [']']
            = pre ++ (restA ++ ',' :: (joinComma (b :: t') ++ [']'])) := by
          rw [hj, hpre]; simp [List.append_assoc]
        rw [hshape]
        simp only [hv1]
        unfold elemsCont
        have e3 : skipWs (restA ++ ',' :: (joinComma (b :: t') ++ [']']))
            = ',' :: (joinComma (b :: t') ++ [']']) :=
          skipWs_pre_build restA ',' _ (skipWs_nil_all restA hwsA) (by decide)
        simp [e3, hvs']
      · intro v hv
        rcases List.mem_cons.mp hv with hv | hv
        · subst hv; rfl
        · exact hall' v hv

/-- The reassembled text `'[' + ','.join(segs) + ']'` parses (at the
canonical fuel used by `json_loads`) as an array with one element per
segment, when every segment is an object line. -/
theorem json_loads_join (s0 : List Char) (t : List (List Char))
    (hobj : ∀ s ∈ s0 :: t, LineObjE s) :
    ∃ vs, json_loads ('[' :: joinComma (s0 :: t) ++ [']']) = some (J.arr vs) ∧
      vs.length = (s0 :: t).length ∧ ∀ v ∈ vs, J.isObjB v = true := by
  obtain ⟨fs0, rest0, hp0, hws0⟩ := hobj s0 (by simp)
  obtain ⟨cs0, hsk0⟩ := parseValue_obj_head _ s0 fs0 rest0 hp0
  have hdec0 := skipWs_decomp s0 '{' cs0 hsk0
  obtain ⟨vs, hvs, hl, ha⟩ := elems_join (s0 :: t)
    ((joinComma (s0 :: t)).length + 2) (by simp) hobj le_rfl
  refine ⟨vs, ?_, hl, ha⟩
  have hcons : '[' :: joinComma (s0 :: t) ++ [']']
      = '[' :: (joinComma (s0 :: t) ++ [']']) := by simp
  rw [hcons]
  unfold json_loads
  have hfuel : ('[' :: (joinComma (s0 :: t) ++ [']'])).length + 1
      = (joinComma (s0 :: t)).length + 2 + 1 := by simp
  rw [hfuel]
  have hskC : skipWs ('[' :: (joinComma (s0 :: t) ++ [']']))
      = '[' :: (joinComma (s0 :: t) ++ [']']) :=
    skipWs_cons_not '[' _ (by decide)
  rw [parseValue_cons ((joinComma (s0 :: t)).length + 2) _ '[' _ hskC]
  unfold valDispatch
  rw [if_neg (by decide), if_pos rfl]
  have hpk : ∃ Z, skipWs (joinComma (s0 :: t) ++ [']']) = '{' :: (cs0 ++ Z) := by
    cases t with
    | nil =>
      refine ⟨[']'], ?_⟩
      have hj : joinComma [s0] = s0 := rfl
      rw [hj]
      conv_lhs => rw [hdec0]
      have h5 : (s0.takeWhile jsonWs ++ '{' :: cs0) ++ [']']
          = s0.takeWhile jsonWs ++ '{' :: (cs0 ++ [']']) := by
        simp [List.append_assoc]
      rw [h5]
      exact skipWs_pre_build _ '{' _ (takeWhile_ws_all s0) (by decide)
    | cons b t' =>
      refine ⟨',' :: joinComma (b :: t') ++ [']'], ?_⟩
      have hj : joinComma (s0 :: b :: t') = s0 ++ ',' :: joinComma (b :: t') := rfl
      rw [hj]
      conv_lhs => rw [hdec0]
      have h5 : ((s0.takeWhile jsonWs ++ '{' :: cs0) ++ ',' :: joinComma (b :: t')) ++ [']']
          = s0.takeWhile jsonWs ++ '{' :: (cs0 ++ (',' :: joinComma (b :: t') ++ [']'])) := by
        simp [List.append_assoc]
      rw [h5]
      exact skipWs_pre_build _ '{' _ (takeWhile_ws_all s0) (by decide)
  obtain ⟨Z, hpk⟩ := hpk
  simp only [hpk]
  rw [if_neg (by decide)]
  simp only [hvs]
  simp [skipWs]

theorem parseValue_comma (f : Nat) (X : List Char) :
    parseValue f (',' :: X) = none := by
  cases f with
  | zero => rfl
  | succ f =>
    rw [parseValue_cons f _ ',' X (skipWs_cons_not ',' X (by decide))]
    unfold valDispatch
    rw [if_neg (by decide), if_neg (by decide), if_neg (by decide), if_neg (by decide),
        if_neg (by decide), if_neg (by decide), if_neg (by decide)]

theorem parseValue_rbracket (f : Nat) (X : List Char) :
    parseValue f (']' :: X) = none := by
  cases f with
  | zero => rfl
  | succ f =>
    rw [parseValue_cons f _ ']' X (skipWs_cons_not ']' X (by decide))]
    unfold valDispatch
    rw [if_neg (by decide), if_neg (by decide), if_neg (by decide), if_neg (by decide),
        if_neg (by decide), if_neg (by decide), if_neg (by decide)]

theorem parseElems_rbracket (F : Nat) : parseElems F [']'] = none := by
  cases F with
  | zero => rfl
  | succ F =>
    rw [parseElems_succ]
    simp [parseValue_rbracket]

/-- An empty segment anywhere in a multi-segment join makes the element
parse fail (an empty string between commas is not a JSON value). -/
theorem elems_fail : ∀ (segs : List (List Char)) (F : Nat),
    (∀ s ∈ segs, s = [] ∨ LineObjE s) → [] ∈ segs → segs ≠ [[]] →
    (joinComma segs).length + 2 ≤ F →
    parseElems F (joinComma segs ++ [']']) = none := by
  intro segs
  induction segs with
  | nil => intro F _ hmem _ _; cases hmem
  | cons a t ih =>
    intro F hOk hmem hne hF
    rcases hOk a (by simp) with ha | ha
    · subst ha
      cases t with
      | nil => exact absurd rfl hne
      | cons b t' =>
        have hj : joinComma ([] :: b :: t') = ',' :: joinComma (b :: t') := rfl
        rw [hj]
        cases F with
        | zero => rfl
        | succ F' =>
          rw [parseElems_succ]
          simp [parseValue_comma]
    · have hanil := LineObjE_ne_nil a ha
      have hmT : ([] : List Char) ∈ t := by
        rcases List.mem_cons.mp hmem with h | h
        · exact absurd h.symm hanil
        · exact h
      obtain ⟨b, t', rfl⟩ : ∃ b t', t = b :: t' := by
        cases t with
        | nil => cases hmT
        | cons b t' => exact ⟨b, t', rfl⟩
      obtain ⟨fs, restA, hpa, hwsA⟩ := ha
      obtain ⟨F', rfl⟩ : ∃ F', F = F' + 1 := by
        cases F with
        | zero => exact absurd hF (by omega)
        | succ F' => exact ⟨F', rfl⟩
      have hj : joinComma (a :: b :: t') = a ++ ',' :: joinComma (b :: t') := rfl
      have hlj : (joinComma (a :: b :: t')).length
          = a.length + ((joinComma (b :: t')).length + 1) := by
        rw [hj]; simp [List.length_append]
      have hlena : a.length + 1 ≤ F' := by omega
      have hpaF : parseValue F' a = some (J.obj fs, restA) :=
        parseValue_mono_le _ _ hlena a _ hpa
      obtain ⟨pre, hpre, _, _, hfam⟩ := (parse_replace F').1 a _ _ hpaF
      rw [parseElems_succ]
      have hv1 := hfam (restA ++ ',' :: (joinComma (b :: t') ++ [']']))
        (numBoundary_obj fs _)
      have hshape : joinComma (a :: b :: t') ++ [']']
          = pre ++ (restA ++ ',' :: (joinComma (b :: t') ++ [']'])) := by
        rw [hj, hpre]; simp [List.append_assoc]
      rw [hshape]
      simp only [hv1]
      unfold elemsCont
      have e3 : skipWs (restA ++ ',' :: (joinComma (b :: t') ++ [']']))
          = ',' :: (joinComma (b :: t') ++ [']']) :=
        skipWs_pre_build restA ',' _ (skipWs_nil_all restA hwsA) (by decide)
      simp only [e3]
      by_cases ht : b :: t' = [([] : List Char)]
      · have hb : b = [] := by
          have := congrArg (fun ls => ls.headI) ht
          simpa using this
        have ht' : t' = [] := by
          have := congrArg (fun ls => ls.tail) ht
          simpa using this
        subst hb; subst ht'
        have hj2 : joinComma [([] : List Char)] = [] := rfl
        rw [hj2]
        simp [parseElems_rbracket]
      · have hfail := ih F' (fun s hs => hOk s (by simp [hs])) hmT ht (by omega)
        simp [hfail]

/-- When some line is empty (and the degenerate all-empty case is excluded),
the reassembled `'[' + ','.join(segs) + ']'` fails to parse. -/
theorem json_loads_join_fail (segs : List (List Char))
    (hOk : ∀ s ∈ segs, s = [] ∨ LineObjE s) (hmem : ([] : List Char) ∈ segs)
    (hne : segs ≠ [([] : List Char)]) :
    json_loads ('[' :: joinComma segs ++ [']']) = none := by
  obtain ⟨a, t, rfl⟩ : ∃ a t, segs = a :: t := by
    cases segs with
    | nil => cases hmem
    | cons a t => exact ⟨a, t, rfl⟩
  have hcons : '[' :: joinComma (a :: t) ++ [']']
      = '[' :: (joinComma (a :: t) ++ [']']) := by simp
  rw [hcons]
  unfold json_loads
  have hfuel : ('[' :: (joinComma (a :: t) ++ [']'])).length + 1
      = (joinComma (a :: t)).length + 2 + 1 := by simp
  rw [hfuel]
  have hskC : skipWs ('[' :: (joinComma (a :: t) ++ [']']))
      = '[' :: (joinComma (a :: t) ++ [']']) :=
    skipWs_cons_not '[' _ (by decide)
  rw [parseValue_cons ((joinComma (a :: t)).length + 2) _ '[' _ hskC]
  unfold valDispatch
  rw [if_neg (by decide), if_pos rfl]
  rcases hOk a (by simp) with ha | ha
  · subst ha
    obtain ⟨b, t', rfl⟩ : ∃ b t', t = b :: t' := by
      cases t with
      | nil => exact absurd rfl hne
      | cons b t' => exact ⟨b, t', rfl⟩
    have hj : joinComma ([] :: b :: t') = ',' :: joinComma (b :: t') := rfl
    have hpk : skipWs (joinComma ([] :: b :: t') ++ [']'])
        = ',' :: (joinComma (b :: t') ++ [']']) := by
      rw [hj]
      exact skipWs_cons_not ',' _ (by decide)
    simp only [hpk]
    rw [if_neg (by decide)]
    have hfail := elems_fail ([] :: b :: t') ((joinComma ([] :: b :: t')).length + 2)
      hOk hmem hne le_rfl
    simp [hfail]
  · obtain ⟨fs0, rest0, hp0, hws0⟩ := ha
    obtain ⟨cs0, hsk0⟩ := parseValue_obj_head _ a fs0 rest0 hp0
    have hdec0 := skipWs_decomp a '{' cs0 hsk0
    have hpk : ∃ Z, skipWs (joinComma (a :: t) ++ [']']) = '{' :: (cs0 ++ Z) := by
      cases t with
      | nil =>
        refine ⟨[']'], ?_⟩
        have hj : joinComma [a] = a := rfl
        rw [hj]
        conv_lhs => rw [hdec0]
        have h5 : (a.takeWhile jsonWs ++ '{' :: cs0) ++ [']']
            = a.takeWhile jsonWs ++ '{' :: (cs0 ++ [']']) := by
          simp [List.append_assoc]
        rw [h5]
        exact skipWs_pre_build _ '{' _ (takeWhile_ws_all a) (by decide)
      | cons b t' =>
        refine ⟨',' :: joinComma (b :: t') ++ [']'], ?_⟩
        have hj : joinComma (a :: b :: t') = a ++ ',' :: joinComma (b :: t') := rfl
        rw [hj]
        conv_lhs => rw [hdec0]
        have h5 : ((a.takeWhile jsonWs ++ '{' :: cs0) ++ ',' :: joinComma (b :: t')) ++ [']']
            = a.takeWhile jsonWs ++ '{' :: (cs0 ++ (',' :: joinComma (b :: t') ++ [']'])) := by
          simp [List.append_assoc]
        rw [h5]
        exact skipWs_pre_build _ '{' _ (takeWhile_ws_all a) (by decide)
    obtain ⟨Z, hpk⟩ := hpk
    simp only [hpk]
    rw [if_neg (by decide)]
    have hanil := LineObjE_ne_nil a ⟨fs0, rest0, hp0, hws0⟩
    have hneq : a :: t ≠ [([] : List Char)] := by
      intro hc
      have : a = [] := by
        have := congrArg (fun ls => ls.headI) hc
        simpa using this
      exact hanil this
    have hfail := elems_fail (a :: t) ((joinComma (a :: t)).length + 2)
      hOk hmem hneq le_rfl
    simp [hfail]

/-! ## Line algebra: how `strip` acts on the line list -/

theorem splitNl_ne_nil (cs : List Char) : splitNl cs ≠ [] := by
  induction cs with
  | nil => simp [splitNl]
  | cons c cs ih =>
    by_cases h : c = '\n'
    · simp [splitNl, h]
    · simp only [splitNl, if_neg h]
      cases hs : splitNl cs with
      | nil => simp
      | cons l ls => simp

/-- Append one character to the last piece of a split. -/
def appendLast : List (List Char) → Char → List (List Char)
  | [], c => [[c]]
  | [l], c => [l ++ [c]]
  | l :: ls, c => l :: appendLast ls c

theorem appendLast_snoc (xs : List (List Char)) (y : List Char) (c : Char) :
    appendLast (xs ++ [y]) c = xs ++ [y ++ [c]] := by
  induction xs with
  | nil => rfl
  | cons a xs ih =>
    cases xs with
    | nil => rfl
    | cons b xs' =>
      have e1 : appendLast ((a :: b :: xs') ++ [y]) c
          = a :: appendLast ((b :: xs') ++ [y]) c := rfl
      rw [e1, ih]
      rfl

theorem splitNl_nl_cons (z : List Char) : splitNl ('\n' :: z) = [] :: splitNl z := by
  simp [splitNl]

theorem splitNl_ch_cons (d : Char) (z : List Char) (hd : d ≠ '\n')
    (l : List Char) (ls : List (List Char)) (hz : splitNl z = l :: ls) :
    splitNl (d :: z) = (d :: l) :: ls := by
  simp [splitNl, if_neg hd, hz]

theorem splitNl_snoc_nl (xs : List Char) :
    splitNl (xs ++ ['\n']) = splitNl xs ++ [[]] := by
  induction xs with
  | nil => rfl
  | cons c xs ih =>
    by_cases h : c = '\n'
    · subst h
      rw [List.cons_append, splitNl_nl_cons, splitNl_nl_cons, ih]
      rfl
    · cases hs : splitNl xs with
      | nil => exact absurd hs (splitNl_ne_nil xs)
      | cons l ls =>
        have h1 : splitNl (xs ++ ['\n']) = l :: (ls ++ [[]]) := by
          rw [ih, hs]; rfl
        rw [List.cons_append, splitNl_ch_cons c _ h _ _ h1,
            splitNl_ch_cons c _ h _ _ hs]
        rfl

theorem splitNl_snoc_ch (xs : List Char) (c : Char) (h : c ≠ '\n') :
    splitNl (xs ++ [c]) = appendLast (splitNl xs) c := by
  induction xs with
  | nil => simp [splitNl, appendLast, if_neg h]
  | cons d xs ih =>
    by_cases hd : d = '\n'
    · subst hd
      rw [List.cons_append, splitNl_nl_cons, ih, splitNl_nl_cons]
      cases hs : splitNl xs with
      | nil => exact absurd hs (splitNl_ne_nil xs)
      | cons l ls => rfl
    · cases hs : splitNl xs with
      | nil => exact absurd hs (splitNl_ne_nil xs)
      | cons l ls =>
        cases ls with
        | nil =>
          have h1 : splitNl (xs ++ [c]) = [l ++ [c]] := by
            rw [ih, hs]; rfl
          rw [List.cons_append, splitNl_ch_cons d _ hd _ _ h1,
              splitNl_ch_cons d _ hd _ _ hs]
          rfl
        | cons l2 ls2 =>
          have h1 : splitNl (xs ++ [c]) = l :: appendLast (l2 :: ls2) c := by
            rw [ih, hs]; rfl
          rw [List.cons_append, splitNl_ch_cons d _ hd _ _ h1,
              splitNl_ch_cons d _ hd _ _ hs]
          rfl

theorem splitNl_reverse (cs : List Char) :
    splitNl cs.reverse = ((splitNl cs).map List.reverse).reverse := by
  induction cs with
  | nil => rfl
  | cons c cs ih =>
    by_cases h : c = '\n'
    · subst h
      rw [List.reverse_cons, splitNl_snoc_nl, ih, splitNl_nl_cons]
      simp
    · rw [List.reverse_cons, splitNl_snoc_ch _ c h, ih]
      cases hs : splitNl cs with
      | nil => exact absurd hs (splitNl_ne_nil cs)
      | cons l ls =>
        rw [splitNl_ch_cons c _ h _ _ hs]
        simp [appendLast_snoc]

/-- What `dropWhile pyWs` looks like at line-list level: leading all-blank
lines disappear, and the first surviving line is left-stripped. -/
def stripLead : List (List Char) → List (List Char)
  | [] => [[]]
  | l :: ls =>
    if ls.isEmpty then [l.dropWhile pyWs]
    else if l.all pyWs then stripLead ls
    else l.dropWhile pyWs :: ls

theorem splitNl_dropWhile (cs : List Char) :
    splitNl (cs.dropWhile pyWs) = stripLead (splitNl cs) := by
  induction cs with
  | nil => rfl
  | cons c cs ih =>
    by_cases hw : pyWs c = true
    · simp only [List.dropWhile_cons, hw, if_true]
      by_cases hn : c = '\n'
      · subst hn
        have h2 : splitNl ('\n' :: cs) = [] :: splitNl cs := by simp [splitNl]
        rw [ih, h2]
        cases hs : splitNl cs with
        | nil => exact absurd hs (splitNl_ne_nil cs)
        | cons l ls => simp [stripLead]
      · cases hs : splitNl cs with
        | nil => exact absurd hs (splitNl_ne_nil cs)
        | cons l ls =>
          have h2 : splitNl (c :: cs) = (c :: l) :: ls := by
            simp [splitNl, if_neg hn, hs]
          rw [ih, h2, hs]
          cases ls with
          | nil => simp [stripLead, List.dropWhile_cons, hw]
          | cons l2 ls2 =>
            by_cases hall : l.all pyWs
            · simp [stripLead, List.dropWhile_cons, hw, hall]
            · simp [stripLead, List.dropWhile_cons, hw, hall]
    · have hn : c ≠ '\n' := by
        intro hc; subst hc; exact hw (by decide)
      simp only [List.dropWhile_cons, hw, if_false]
      cases hs : splitNl cs with
      | nil => exact absurd hs (splitNl_ne_nil cs)
      | cons l ls =>
        have h2 : splitNl (c :: cs) = (c :: l) :: ls := by
          simp [splitNl, if_neg hn, hs]
        rw [h2]
        cases ls with
        | nil =>
          simp [stripLead, List.dropWhile_cons, hw]
          exact h2
        | cons l2 ls2 =>
          simp [stripLead, List.dropWhile_cons, hw]
          exact h2

/-- `strip` at the line level: right-pass then left-pass, each a reversed
`stripLead`. -/
theorem splitNl_pyStrip (cs : List Char) :
    splitNl (pyStrip cs)
      = stripLead ((List.map List.reverse
          (stripLead ((List.map List.reverse (splitNl cs)).reverse))).reverse) := by
  show splitNl (((cs.reverse.dropWhile pyWs).reverse).dropWhile pyWs) = _
  rw [splitNl_dropWhile, splitNl_reverse, splitNl_dropWhile, splitNl_reverse]

theorem countNE_cons (x : List Char) (xs : List (List Char)) :
    countNE (x :: xs) = (if x = [] then 0 else 1) + countNE xs := by
  cases x <;> simp [countNE, List.filter_cons] <;> try omega

theorem countNE_reverse (ls : List (List Char)) :
    countNE ls.reverse = countNE ls := by
  induction ls with
  | nil => rfl
  | cons l ls ih =>
    rw [List.reverse_cons, countNE_cons]
    have h1 : countNE (ls.reverse ++ [l]) = countNE ls.reverse + countNE [l] := by
      simp [countNE, List.filter_append]
    rw [h1, ih]
    cases l <;> simp [countNE] <;> omega

theorem countNE_map_reverse (ls : List (List Char)) :
    countNE (ls.map List.reverse) = countNE ls := by
  induction ls with
  | nil => rfl
  | cons l ls ih =>
    rw [List.map_cons, countNE_cons, countNE_cons, ih]
    by_cases h : l = []
    · subst h; simp
    · rw [if_neg h, if_neg (by simpa [List.reverse_eq_nil_iff] using h)]

theorem revrev_facts (P : List Char → Prop) (ls : List (List Char))
    (hall : ∀ l ∈ ls, P l) :
    (∀ m ∈ (ls.map List.reverse).reverse, P m.reverse) ∧
      countNE ((ls.map List.reverse).reverse) = countNE ls := by
  constructor
  · intro m hm
    rw [List.mem_reverse] at hm
    obtain ⟨l, hl, rfl⟩ := List.mem_map.mp hm
    rw [List.reverse_reverse]
    exact hall l hl
  · rw [countNE_reverse, countNE_map_reverse]

theorem stripLead_facts (P : List Char → Prop) (hnil : P [])
    (hdrop : ∀ l, P l → P (l.dropWhile pyWs))
    (hws : ∀ l, P l → l.all pyWs = true → l = []) :
    ∀ ls, (∀ l ∈ ls, P l) →
      (∀ l ∈ stripLead ls, P l) ∧ countNE (stripLead ls) = countNE ls := by
  intro ls
  induction ls with
  | nil =>
    intro _
    exact ⟨fun l hl => by simp [stripLead] at hl; rw [hl]; exact hnil, rfl⟩
  | cons l ls ih =>
    intro hall
    have hPl := hall l (by simp)
    cases ls with
    | nil =>
      constructor
      · intro m hm
        have : m = l.dropWhile pyWs := by simpa [stripLead] using hm
        rw [this]; exact hdrop l hPl
      · show countNE [l.dropWhile pyWs] = countNE [l]
        by_cases hl : l = []
        · subst hl; rfl
        · have hne : l.dropWhile pyWs ≠ [] := by
            intro hd
            exact hl (hws l hPl (List.all_eq_true.mpr
              (List.dropWhile_eq_nil_iff.mp hd)))
          rw [countNE_cons (l.dropWhile pyWs) [], countNE_cons l [],
              if_neg hne, if_neg hl]
    | cons l2 ls2 =>
      have hsl : stripLead (l :: l2 :: ls2)
          = if l.all pyWs then stripLead (l2 :: ls2)
            else l.dropWhile pyWs :: l2 :: ls2 := by
        simp [stripLead]
      by_cases hall2 : l.all pyWs
      · have hl : l = [] := hws l hPl hall2
        rw [hsl, if_pos hall2]
        obtain ⟨h1, h2⟩ := ih fun m hm => hall m (by simp [hm])
        refine ⟨h1, ?_⟩
        rw [h2, countNE_cons l (l2 :: ls2), if_pos hl]
        omega
      · have hlne : l ≠ [] := by
          intro hl; subst hl; exact hall2 rfl
        have hne : l.dropWhile pyWs ≠ [] := by
          intro hd
          exact hall2 (List.all_eq_true.mpr (List.dropWhile_eq_nil_iff.mp hd))
        rw [hsl, if_neg hall2]
        constructor
        · intro m hm
          rcases List.mem_cons.mp hm with h | h
          · rw [h]; exact hdrop l hPl
          · exact hall m (by simp [List.mem_cons.mp h])
        · rw [countNE_cons (l.dropWhile pyWs) (l2 :: ls2), countNE_cons l (l2 :: ls2),
              if_neg hne, if_neg hlne]

/-- `strip` preserves the per-line object discipline and the non-empty
line count. -/
theorem pyStrip_lines_ok (cs : List Char)
    (hall : ∀ l ∈ splitNl cs, l = [] ∨ LineObjE l) :
    (∀ l ∈ splitNl (pyStrip cs), l = [] ∨ LineObjE l) ∧
      countNE (splitNl (pyStrip cs)) = countNE (splitNl cs) := by
  have hP0nil : ([] : List Char) = [] ∨ LineObjE [] := Or.inl rfl
  have hP0drop : ∀ l : List Char, (l = [] ∨ LineObjE l) →
      (l.dropWhile pyWs = [] ∨ LineObjE (l.dropWhile pyWs)) := by
    intro l h
    rcases h with h | h
    · subst h; exact Or.inl rfl
    · exact Or.inr (LineObjE_lstrip l h)
  have hP0ws : ∀ l : List Char, (l = [] ∨ LineObjE l) →
      l.all pyWs = true → l = [] := by
    intro l h hw
    rcases h with h | h
    · exact h
    · exact absurd hw (by rw [LineObjE_not_allWs l h]; simp)
  have hP1nil : (([] : List Char).reverse = [] ∨ LineObjE ([] : List Char).reverse) :=
    Or.inl rfl
  have hP1drop : ∀ l : List Char, (l.reverse = [] ∨ LineObjE l.reverse) →
      ((l.dropWhile pyWs).reverse = [] ∨ LineObjE (l.dropWhile pyWs).reverse) := by
    intro l h
    have key : (l.dropWhile pyWs).reverse = rstrip l.reverse := by
      simp [rstrip]
    rcases h with h | h
    · have : l = [] := by simpa using h
      subst this; exact Or.inl rfl
    · rw [key]; exact Or.inr (LineObjE_rstrip _ h)
  have hP1ws : ∀ l : List Char, (l.reverse = [] ∨ LineObjE l.reverse) →
      l.all pyWs = true → l = [] := by
    intro l h hw
    rcases h with h | h
    · simpa using h
    · have hw' : l.reverse.all pyWs = true := by
        rw [List.all_eq_true] at hw ⊢
        intro x hx
        exact hw x (List.mem_reverse.mp hx)
      exact absurd hw' (by rw [LineObjE_not_allWs l.reverse h]; simp)
  obtain ⟨hA, cA⟩ := revrev_facts (fun l => l = [] ∨ LineObjE l) (splitNl cs) hall
  obtain ⟨hB, cB⟩ := stripLead_facts (fun l => l.reverse = [] ∨ LineObjE l.reverse)
    hP1nil hP1drop hP1ws ((List.map List.reverse (splitNl cs)).reverse) hA
  obtain ⟨hC, cC⟩ := revrev_facts (fun l => l.reverse = [] ∨ LineObjE l.reverse)
    (stripLead ((List.map List.reverse (splitNl cs)).reverse)) hB
  have hC' : ∀ m ∈ (List.map List.reverse
      (stripLead ((List.map List.reverse (splitNl cs)).reverse))).reverse,
      m = [] ∨ LineObjE m := by
    intro m hm
    have := hC m hm
    simpa [List.reverse_reverse] using this
  obtain ⟨hD, cD⟩ := stripLead_facts (fun l => l = [] ∨ LineObjE l)
    hP0nil hP0drop hP0ws
    ((List.map List.reverse
      (stripLead ((List.map List.reverse (splitNl cs)).reverse))).reverse) hC'
  rw [splitNl_pyStrip]
  exact ⟨hD, by rw [cD, cC, cB, cA]⟩

theorem countNE_all_ne (ls : List (List Char)) (h : ∀ l ∈ ls, l ≠ []) :
    countNE ls = ls.length := by
  induction ls with
  | nil => rfl
  | cons l t ih =>
    rw [countNE_cons, if_neg (h l (by simp)), ih fun x hx => h x (by simp [hx])]
    simp [Nat.add_comm]

/-- C1: for every collection `c` and every JSON-Lines source whose
non-empty lines each parse as a JSON object, if `insert_data` (ingest)
succeeds on an initially empty (or absent) collection, then the size of
`c` afterwards equals the number of non-empty lines of the source — the
round-trip count law. -/
theorem C1_roundtrip_count (st : MDState) (d c : String) (src : String)
    (hd : st.db = some d) (hempty : emptyCollB st c = true)
    (hlines : ∀ l ∈ splitNl src.data, l ≠ [] → lineObjB l = true)
    (hok : pyOk (MongoDriver.insert_data st c src false).ret = true) :
    (MongoDriver.collection_size
        (MongoDriver.insert_data st c src false).state c).ret
      = .ok (countNE (splitNl src.data)) := by
  have hOk0 : ∀ l ∈ splitNl src.data, l = [] ∨ LineObjE l := by
    intro l hl
    by_cases h : l = []
    · exact Or.inl h
    · exact Or.inr (lineObjB_LineObjE l (hlines l hl h))
  obtain ⟨hOkS, hcnt⟩ := pyStrip_lines_ok src.data hOk0
  have hre : reassemble src
      = '[' :: joinComma (splitNl (pyStrip src.data)) ++ [']'] := rfl
  by_cases hmem : ([] : List Char) ∈ splitNl (pyStrip src.data)
  · by_cases hdeg : splitNl (pyStrip src.data) = [([] : List Char)]
    · exfalso
      have hjson : json_loads (reassemble src) = some (J.arr []) := by
        rw [hre, hdeg]
        rfl
      have hret : (MongoDriver.insert_data st c src false).ret
          = .error .invalidOperation := by
        simp [MongoDriver.insert_data, hd, hjson, MongoDriver.insertManyErr]
      rw [hret] at hok
      simp [pyOk] at hok
    · exfalso
      have hjson : json_loads (reassemble src) = none := by
        rw [hre]
        exact json_loads_join_fail _ hOkS hmem hdeg
      have hret : (MongoDriver.insert_data st c src false).ret
          = .error .jsonDecodeError := by
        simp [MongoDriver.insert_data, hd, hjson]
      rw [hret] at hok
      simp [pyOk] at hok
  · have hLE : ∀ s ∈ splitNl (pyStrip src.data), LineObjE s := by
      intro s hs
      rcases hOkS s hs with h | h
      · rw [h] at hs; exact absurd hs hmem
      · exact h
    obtain ⟨s0, t, hseg⟩ : ∃ s0 t, splitNl (pyStrip src.data) = s0 :: t := by
      cases hsp : splitNl (pyStrip src.data) with
      | nil => exact absurd hsp (splitNl_ne_nil _)
      | cons s0 t => exact ⟨s0, t, rfl⟩
    obtain ⟨vs, hjson0, hlen, hobj⟩ :=
      json_loads_join s0 t (by rw [← hseg]; exact hLE)
    have hjson : json_loads (reassemble src) = some (J.arr vs) := by
      rw [hre, hseg]; exact hjson0
    have hvsne : vs.isEmpty = false := by
      cases vs with
      | nil => exact absurd hlen (by simp)
      | cons a b => rfl
    have hie : MongoDriver.insertManyErr vs = none := by
      simp [MongoDriver.insertManyErr, hvsne, List.all_eq_true.mpr hobj]
    have hcount : vs.length = countNE (splitNl src.data) := by
      have hne' : ∀ l ∈ splitNl (pyStrip src.data), l ≠ [] :=
        fun l hl => LineObjE_ne_nil l (hLE l hl)
      have hEq : countNE (splitNl (pyStrip src.data))
          = (splitNl (pyStrip src.data)).length := countNE_all_ne _ hne'
      rw [← hcnt, hEq, hseg, hlen]
    cases hl : lookupColl st.store c with
    | none =>
      have h2 := lookupColl_addColl_none st.store c hl
      simp [MongoDriver.insert_data, MongoDriver.resolve_collection,
        MongoDriver.collection_size, hd, hjson, hl, h2, hie,
        lookupColl_appendDocs_self, hcount]
    | some v =>
      have hv : v = [] := by
        cases v with
        | nil => rfl
        | cons a b => simp [emptyCollB, hl] at hempty
      subst hv
      simp [MongoDriver.insert_data, MongoDriver.resolve_collection,
        MongoDriver.collection_size, hd, hjson, hl, hie,
        lookupColl_appendDocs_self, hcount]

/-- Witness for C1 at the concrete two-line source
`{"a":null}\n{"b":null}`. -/
theorem C1_roundtrip_count_witness :
    (({ MongoDriver.init "localhost" 27017 "d" with
          db := some "d", store := [] } : MDState).db = some "d" ∧
     emptyCollB { MongoDriver.init "localhost" 27017 "d" with
          db := some "d", store := [] } "t" = true ∧
     (∀ l ∈ splitNl ("\x7b\"a\":null\x7d\n\x7b\"b\":null\x7d" : String).data,
        l ≠ [] → lineObjB l = true) ∧
     pyOk (MongoDriver.insert_data
        { MongoDriver.init "localhost" 27017 "d" with db := some "d", store := [] }
        "t" "\x7b\"a\":null\x7d\n\x7b\"b\":null\x7d" false).ret = true) ∧
    (MongoDriver.collection_size
        (MongoDriver.insert_data
          { MongoDriver.init "localhost" 27017 "d" with db := some "d", store := [] }
          "t" "\x7b\"a\":null\x7d\n\x7b\"b\":null\x7d" false).state "t").ret
      = .ok (countNE (splitNl ("\x7b\"a\":null\x7d\n\x7b\"b\":null\x7d" : String).data)) :=
  ⟨⟨rfl, rfl, by decide, rfl⟩,
   C1_roundtrip_count
    { MongoDriver.init "localhost" 27017 "d" with db := some "d", store := [] }
    "d" "t" "\x7b\"a\":null\x7d\n\x7b\"b\":null\x7d" rfl rfl (by decide) rfl⟩
